import Mathlib

/-!
Small-object memory allocator

A shallow embedding of `MemoryAllocator.h` / `MemoryAllocator.cpp`:
`Chunk`, `FixedAllocator` and `SmallObjectAllocator`.

Modelling conventions
* `size_t` values are natural numbers reduced modulo `2 ^ 64` wherever the
  source computes with them; `small_size_t` (`unsigned char`) values are
  reduced modulo `256`.
* A `pointer_t` is an address, a natural number; `0` is `nullptr`.
* A `Chunk*` into `m_chunks` is the index of the element it points to
  (`Option Nat`, `none` for `nullptr`).  The index may be stale or one past
  the end, exactly as the pointer may; dereferencing such an index is a
  `Fault.undefined`.
* The bytes a chunk's `m_data_ptr` points to are carried next to the pointer
  in the field `slab`.
* `assert` is live (`NDEBUG` is commented out in the header): a failing
  assertion ends the call with `Fault.assertion`.
* `::operator new` is answered by the caller of the model: `some slab` is the
  block handed out (its address and its indeterminate content), `none` is
  `std::bad_alloc`.
-/

namespace MemoryAllocator

/-- Ways in which a call does not return normally. -/
inductive Fault where
  /-- An `assert` failed. -/
  | assertion
  /-- Undefined behaviour: access outside a vector or a slab, null or stale pointer. -/
  | undefined
  /-- The underlying `::operator new` threw. -/
  | bad_alloc
  /-- The call never returns. -/
  | diverges
  deriving DecidableEq, Repr

deriving instance DecidableEq for Except

/-- Modulus of `size_t`. -/
abbrev SIZE_MOD : Nat := 2 ^ 64

/-- Modulus of `small_size_t`. -/
abbrev SMALL_MOD : Nat := 256

abbrev MIN_BLOCKS_PER_CHUNK : Nat := 4

/-- The header sets this to `UCHAR_MAX`. -/
abbrev MAX_BLOCKS_PER_CHUNK : Nat := 255

/-- The lambda `get_offset` of the header, `(bytes + alignment - 1) / alignment`
in `size_t` arithmetic.  (For `alignment = 0` the source divides by zero.) -/
def get_offset (bytes alignment : Nat) : Nat :=
  ((bytes + alignment + (SIZE_MOD - 1)) % SIZE_MOD) / alignment

/-- Answer of `::operator new(size)`: where the block lies and what its
bytes hold before anything is written (`junk i` for the byte at offset `i`). -/
structure Slab where
  addr : Nat
  junk : Nat → Nat

/-- Read one byte of a slab; outside the slab the read is undefined. -/
def peek (mem : List Nat) (off : Nat) : Except Fault Nat :=
  match mem[off]? with
  | some b => .ok b
  | none => .error .undefined

/-- Write one byte of a slab; outside the slab the write is undefined. -/
def poke (mem : List Nat) (off val : Nat) : Except Fault (List Nat) :=
  if off < mem.length then .ok (mem.set off val) else .error .undefined

/-! ## Chunk -/

structure Chunk where
  m_data_ptr : Nat := 0
  m_first_available_block : Nat := 0
  m_available_blocks : Nat := 0
  /-- The bytes at `m_data_ptr`, `m_data_ptr + 1`, ... -/
  slab : List Nat := []
  deriving DecidableEq, Repr

/-- The loop of `Chunk::reset`: `for (i = 1; i != blocks; ++i) { *p = i; p += block_size; }`.
Iteration `k` (counted from `0`) stores `k + 1` at offset `k * block_size`;
there are `blocks - 1` iterations. -/
def reset_links (mem : List Nat) (block_size blocks : Nat) : Except Fault (List Nat) :=
  (List.range (blocks - 1)).foldlM (fun m k => poke m (k * block_size) (k + 1)) mem

/-- `Chunk::reset`. -/
def Chunk.reset (c : Chunk) (block_size blocks : Nat) : Except Fault Chunk :=
  if ¬ (block_size > 0 ∧ blocks > 0) then .error .assertion else
  match reset_links c.slab block_size blocks with
  | .error e => .error e
  | .ok mem =>
    .ok { c with m_first_available_block := 0, m_available_blocks := blocks, slab := mem }

/-- `Chunk::initialize`. -/
def Chunk.initialize (c : Chunk) (block_size number_of_blocks : Nat) (heap : Option Slab) :
    Except Fault Chunk :=
  if ¬ (block_size > 0 ∧ number_of_blocks > 0) then .error .assertion else
  let allocate_size := (block_size * number_of_blocks) % SIZE_MOD
  if allocate_size / block_size ≠ number_of_blocks then .error .assertion else
  if c.m_data_ptr ≠ 0 then .error .assertion else
  match heap with
  | none => .error .bad_alloc
  | some s =>
    Chunk.reset
      { c with m_data_ptr := s.addr,
               slab := (List.range allocate_size).map (fun i => s.junk i % SMALL_MOD) }
      block_size number_of_blocks

/-- `Chunk::release`: the slab goes back to the heap. -/
def Chunk.release (c : Chunk) : Except Fault Unit :=
  if c.m_data_ptr = 0 then .error .assertion else .ok ()

/-- `Chunk::allocate`; the pointer returned is `0` for `nullptr`. -/
def Chunk.allocate (c : Chunk) (block_size : Nat) : Except Fault (Nat × Chunk) :=
  if ¬ block_size > 0 then .error .assertion else
  if c.m_available_blocks < 1 then .ok (0, c) else
  let offset := (c.m_first_available_block * block_size) % SIZE_MOD
  match peek c.slab offset with
  | .error e => .error e
  | .ok b =>
    .ok (c.m_data_ptr + offset,
         { c with m_first_available_block := b,
                  m_available_blocks := c.m_available_blocks - 1 })

/-- `Chunk::deallocate`. -/
def Chunk.deallocate (c : Chunk) (ptr block_size : Nat) : Except Fault Chunk :=
  if ¬ (block_size > 0 ∧ ptr ≥ c.m_data_ptr) then .error .assertion else
  let diff := ptr - c.m_data_ptr
  if diff % block_size ≠ 0 then .error .assertion else
  match poke c.slab diff c.m_first_available_block with
  | .error e => .error e
  | .ok mem =>
    .ok { c with slab := mem,
                 m_first_available_block := (diff / block_size) % SMALL_MOD,
                 m_available_blocks := (c.m_available_blocks + 1) % SMALL_MOD }

/-- `Chunk::has_block`. -/
def Chunk.has_block (c : Chunk) (ptr chunk_length : Nat) : Bool :=
  decide (c.m_data_ptr ≤ ptr) && decide (ptr < c.m_data_ptr + chunk_length)

/-! ## FixedAllocator -/

structure FixedAllocator where
  m_block_size : Nat := 0
  m_number_of_blocks : Nat := 0
  m_chunks : List Chunk := []
  /-- Index in `m_chunks` of the chunk `m_last_allocation` points to. -/
  m_last_allocation : Option Nat := none
  /-- Index in `m_chunks` of the chunk `m_last_deallocation` points to. -/
  m_last_deallocation : Option Nat := none
  deriving DecidableEq, Repr

/-- `FixedAllocator::initialize`. -/
def FixedAllocator.initialize (fa : FixedAllocator) (block_size chunk_size : Nat) :
    Except Fault FixedAllocator :=
  if ¬ (block_size > 0 ∧ chunk_size ≥ block_size) then .error .assertion else
  let number_of_blocks := chunk_size / block_size
  if ¬ number_of_blocks > 0 then .error .assertion else
  let number_of_blocks :=
    if number_of_blocks > MAX_BLOCKS_PER_CHUNK then MAX_BLOCKS_PER_CHUNK
    else if number_of_blocks < MIN_BLOCKS_PER_CHUNK then MIN_BLOCKS_PER_CHUNK
    else number_of_blocks
  .ok { fa with m_block_size := block_size,
                m_number_of_blocks := number_of_blocks % SMALL_MOD }

/-- The constructor `FixedAllocator(block_size, chunk_size)`. -/
def FixedAllocator.mk_sized (block_size chunk_size : Nat) : Except Fault FixedAllocator :=
  FixedAllocator.initialize {} block_size chunk_size

/-- The range-for of `FixedAllocator::allocate`: index of the first chunk,
from position `i` on, with `m_available_blocks > 0`. -/
def scan_available : List Chunk → Nat → Option Nat
  | [], _ => none
  | c :: cs, i => if c.m_available_blocks > 0 then some i else scan_available cs (i + 1)

/-- Body of the outer `if` of `FixedAllocator::allocate`: look for a chunk with
a free block and, when `m_last_allocation` is still `nullptr` afterwards,
append a new chunk. -/
def FixedAllocator.refill (fa : FixedAllocator) (heap : Option Slab) :
    Except Fault FixedAllocator :=
  let fa1 : FixedAllocator :=
    match scan_available fa.m_chunks 0 with
    | some i => { fa with m_last_allocation := some i }
    | none => fa
  if fa1.m_last_allocation = none then
    match Chunk.initialize {} fa1.m_block_size fa1.m_number_of_blocks heap with
    | .error e => .error e
    | .ok new_chunk =>
      .ok { fa1 with m_chunks := fa1.m_chunks ++ [new_chunk],
                     m_last_allocation := some fa1.m_chunks.length,
                     m_last_deallocation := some 0 }
  else .ok fa1

/-- `FixedAllocator::allocate`; the pointer returned is `0` for `nullptr`. -/
def FixedAllocator.allocate (fa : FixedAllocator) (heap : Option Slab) :
    Except Fault (Nat × FixedAllocator) :=
  let exhausted : Except Fault Bool :=
    match fa.m_last_allocation with
    | none => .ok true
    | some i =>
      match fa.m_chunks[i]? with
      | none => .error .undefined
      | some c => .ok (decide (c.m_available_blocks = 0))
  match exhausted with
  | .error e => .error e
  | .ok b =>
    match (if b then fa.refill heap else .ok fa) with
    | .error e => .error e
    | .ok fa2 =>
      match fa2.m_last_allocation with
      | none => .error .assertion
      | some i =>
        match fa2.m_chunks[i]? with
        | none => .error .undefined
        | some c =>
          if ¬ c.m_available_blocks > 0 then .error .assertion else
          match c.allocate fa2.m_block_size with
          | .error e => .error e
          | .ok (p, c1) => .ok (p, { fa2 with m_chunks := fa2.m_chunks.set i c1 })

/-- What one pass through the body of the `while(true)` of
`FixedAllocator::find_in_vicinity` ends in. -/
inductive Probe where
  /-- `return` of the chunk with this index. -/
  | found (i : Nat)
  /-- The pass dereferences a pointer that names no element of `m_chunks`. -/
  | fault (f : Fault)
  /-- The loop goes round again with these cursors. -/
  | next (lower upper : Option Nat)
  deriving DecidableEq, Repr

/-- One pass through the loop body of `find_in_vicinity`.  The `lower`
cursor is tested and moved first, then the `upper` cursor is tested; the
source never moves `upper`. -/
def FixedAllocator.vicinity_step (fa : FixedAllocator) (ptr chunk_length : Nat)
    (lower upper : Option Nat) : Probe :=
  let after_lower : Probe :=
    match lower with
    | none => .next none upper
    | some l =>
      match fa.m_chunks[l]? with
      | none => .fault .undefined
      | some c =>
        if c.has_block ptr chunk_length then .found l
        else if l = 0 then .next none upper
        else .next (some (l - 1)) upper
  match after_lower with
  | .next lower1 (some u) =>
    match fa.m_chunks[u]? with
    | none => .fault .undefined
    | some c => if c.has_block ptr chunk_length then .found u else .next lower1 (some u)
  | r => r

/-- The `while(true)` of `find_in_vicinity`, run for at most `fuel` passes;
`none` when the loop is still running after that many. -/
def FixedAllocator.vicinity_loop (fa : FixedAllocator) (ptr chunk_length : Nat) :
    Nat → Option Nat → Option Nat → Option (Except Fault Nat)
  | 0, _, _ => none
  | fuel + 1, lower, upper =>
    match fa.vicinity_step ptr chunk_length lower upper with
    | .found i => some (.ok i)
    | .fault f => some (.error f)
    | .next lower1 upper1 => fa.vicinity_loop ptr chunk_length fuel lower1 upper1

/-- `FixedAllocator::find_in_vicinity`.  `lower_bound` is index `0` and
`upper_bound` is the index of the back element.  A pass that neither returns
nor faults either moves `lower` one down or leaves both cursors as they are,
so a loop still running after `m_chunks.length + 1` passes runs for ever
(`find_in_vicinity_budget`). -/
def FixedAllocator.find_in_vicinity (fa : FixedAllocator) (ptr : Nat) :
    Except Fault (Option Nat) :=
  if fa.m_chunks.isEmpty then .ok none else
  let chunk_length := (fa.m_number_of_blocks * fa.m_block_size) % SIZE_MOD
  match fa.m_last_deallocation with
  | none => .error .undefined
  | some d =>
    let upper : Option Nat := if d + 1 = fa.m_chunks.length - 1 then none else some (d + 1)
    match fa.vicinity_loop ptr chunk_length (fa.m_chunks.length + 1) (some d) upper with
    | none => .error .diverges
    | some (.error e) => .error e
    | some (.ok i) => .ok (some i)

/-- `std::swap(*a, *b)` on two elements of `m_chunks`. -/
def swap_chunks (chunks : List Chunk) (a b : Nat) : Except Fault (List Chunk) :=
  match chunks[a]?, chunks[b]? with
  | some ca, some cb => .ok ((chunks.set a cb).set b ca)
  | _, _ => .error .undefined

/-- The block of `FixedAllocator::deallocate` guarded by
`m_last_deallocation->m_available_blocks > m_number_of_blocks`; `d` is the
index `m_last_deallocation` holds. -/
def FixedAllocator.reclaim (fa : FixedAllocator) (d : Nat) : Except Fault FixedAllocator :=
  let last := fa.m_chunks.length - 1
  match fa.m_chunks[last]? with
  | none => .error .undefined
  | some last_chunk =>
    if last = d then
      let prior_empty : Except Fault Bool :=
        if fa.m_chunks.length > 1 then
          match fa.m_chunks[d - 1]? with
          | none => .error .undefined
          | some c => .ok (decide (c.m_available_blocks = fa.m_number_of_blocks))
        else .ok false
      match prior_empty with
      | .error e => .error e
      | .ok false => .ok fa
      | .ok true =>
        match last_chunk.release with
        | .error e => .error e
        | .ok _ =>
          .ok { fa with m_chunks := fa.m_chunks.dropLast,
                        m_last_allocation := some 0,
                        m_last_deallocation := some 0 }
    else if last_chunk.m_available_blocks = fa.m_number_of_blocks then
      match last_chunk.release with
      | .error e => .error e
      | .ok _ =>
        .ok { fa with m_chunks := fa.m_chunks.dropLast,
                      m_last_allocation := fa.m_last_deallocation }
    else
      match swap_chunks fa.m_chunks d last with
      | .error e => .error e
      | .ok chunks => .ok { fa with m_chunks := chunks, m_last_allocation := some last }

/-- `FixedAllocator::deallocate`. -/
def FixedAllocator.deallocate (fa : FixedAllocator) (ptr : Nat) : Except Fault FixedAllocator :=
  if fa.m_chunks.isEmpty then .error .assertion else
  match fa.find_in_vicinity ptr with
  | .error e => .error e
  | .ok none => .error .assertion
  | .ok (some d) =>
    match fa.m_chunks[d]? with
    | none => .error .undefined
    | some c =>
      match c.deallocate ptr fa.m_block_size with
      | .error e => .error e
      | .ok c1 =>
        let fa1 : FixedAllocator :=
          { fa with m_last_deallocation := some d, m_chunks := fa.m_chunks.set d c1 }
        if c1.m_available_blocks > fa.m_number_of_blocks then fa1.reclaim d else .ok fa1

/-- The range-for of `FixedAllocator::has_block`, from position `i` on. -/
def scan_owner (ptr chunk_length : Nat) : List Chunk → Nat → Option Nat
  | [], _ => none
  | c :: cs, i => if c.has_block ptr chunk_length then some i else scan_owner ptr chunk_length cs (i + 1)

/-- `FixedAllocator::has_block`: index of the first chunk whose slab holds `ptr`. -/
def FixedAllocator.has_block (fa : FixedAllocator) (ptr : Nat) : Option Nat :=
  scan_owner ptr ((fa.m_number_of_blocks * fa.m_block_size) % SIZE_MOD) fa.m_chunks 0

/-! ## SmallObjectAllocator -/

structure SmallObjectAllocator where
  m_object_alignment : Nat
  m_max_object_size : Nat
  m_pool : List FixedAllocator := []
  deriving DecidableEq, Repr

/-- The loop of the constructor, `m_pool[i].initialize((i+1) * object_alignment, chunk_size)`
for `i = 0, ..., count - 1`.  `operator[]` outside the vector's size is undefined. -/
def init_pool (pool : List FixedAllocator) (chunk_size object_alignment count : Nat) :
    Except Fault (List FixedAllocator) :=
  (List.range count).foldlM
    (fun p i =>
      match p[i]? with
      | none => .error .undefined
      | some fa =>
        match FixedAllocator.initialize fa (((i + 1) * object_alignment) % SIZE_MOD) chunk_size with
        | .error e => .error e
        | .ok fa1 => .ok (p.set i fa1))
    pool

/-- The constructor `SmallObjectAllocator(chunk_size, max_object_size, object_alignment)`.
`m_pool` starts empty and `m_pool.reserve(count)` changes its capacity, not
its size, so the loop runs on the empty vector. -/
def SmallObjectAllocator.construct (chunk_size max_object_size object_alignment : Nat) :
    Except Fault SmallObjectAllocator :=
  if object_alignment = 0 then .error .undefined else
  let count := get_offset max_object_size object_alignment
  let reserved : List FixedAllocator := []
  match init_pool reserved chunk_size object_alignment count with
  | .error e => .error e
  | .ok pool =>
    .ok { m_object_alignment := object_alignment,
          m_max_object_size := max_object_size,
          m_pool := pool }

/-- The expression `get_offset(bytes, m_object_alignment) - 1` of `allocate` and
`deallocate`, in `size_t` arithmetic. -/
def pool_index (bytes alignment : Nat) : Nat :=
  (get_offset bytes alignment + (SIZE_MOD - 1)) % SIZE_MOD

/-- `SmallObjectAllocator::allocate`; the pointer returned is `0` for `nullptr`.
For `bytes > m_max_object_size` the answer of `::operator new` is passed on. -/
def SmallObjectAllocator.allocate (s : SmallObjectAllocator) (bytes : Nat) (heap : Option Slab) :
    Except Fault (Nat × SmallObjectAllocator) :=
  if bytes > s.m_max_object_size then
    match heap with
    | none => .error .bad_alloc
    | some b => .ok (b.addr, s)
  else if bytes = 0 then .ok (0, s)
  else if s.m_object_alignment = 0 then .error .undefined
  else
    let index := pool_index bytes s.m_object_alignment
    let max_index := get_offset s.m_max_object_size s.m_object_alignment
    if ¬ index < max_index then .error .assertion else
    match s.m_pool[index]? with
    | none => .error .undefined
    | some fa =>
      match fa.allocate heap with
      | .error e => .error e
      | .ok (place, fa1) => .ok (place, { s with m_pool := s.m_pool.set index fa1 })

/-- Outcome of a call that may hand pointers to `::operator delete`:
`freed` lists them in call order, whether or not the call then returns. -/
structure Effect (α : Type) where
  freed : List Nat
  result : Except Fault α
  deriving DecidableEq

/-- `SmallObjectAllocator::deallocate(pointer_t, size_t)`. -/
def SmallObjectAllocator.deallocate_sized (s : SmallObjectAllocator) (ptr bytes : Nat) :
    Effect SmallObjectAllocator :=
  if ptr = 0 ∨ bytes = 0 then ⟨[], .ok s⟩ else
  let freed : List Nat := if bytes > s.m_max_object_size then [ptr] else []
  ⟨freed,
    if s.m_object_alignment = 0 then .error .undefined else
    let index := pool_index bytes s.m_object_alignment
    let max_index := get_offset s.m_max_object_size s.m_object_alignment
    if ¬ index < max_index then .error .assertion else
    match s.m_pool[index]? with
    | none => .error .undefined
    | some allocator =>
      if ¬ allocator.m_block_size ≥ bytes then .error .assertion else
      if ¬ allocator.m_block_size < (bytes + s.m_object_alignment) % SIZE_MOD then
        .error .assertion
      else
        match allocator.deallocate ptr with
        | .error e => .error e
        | .ok a1 => .ok { s with m_pool := s.m_pool.set index a1 }⟩

/-- The `for` of `SmallObjectAllocator::deallocate(pointer_t)`: index of the
first `m_pool[i]`, `i < max_index`, whose `has_block(ptr)` is not `nullptr`.
`remaining` counts the indices still to visit, `i` is the current one. -/
def SmallObjectAllocator.find_owner (s : SmallObjectAllocator) (ptr : Nat) :
    Nat → Nat → Except Fault (Option Nat)
  | 0, _ => .ok none
  | remaining + 1, i =>
    match s.m_pool[i]? with
    | none => .error .undefined
    | some fa =>
      match fa.has_block ptr with
      | some _ => .ok (some i)
      | none => s.find_owner ptr remaining (i + 1)

/-- `SmallObjectAllocator::deallocate(pointer_t)`.  After the search the
source returns in both cases without calling anything. -/
def SmallObjectAllocator.deallocate (s : SmallObjectAllocator) (ptr : Nat) :
    Except Fault SmallObjectAllocator :=
  if ptr = 0 then .ok s else
  if s.m_object_alignment = 0 then .error .undefined else
  let max_index := get_offset s.m_max_object_size s.m_object_alignment
  match s.find_owner ptr max_index 0 with
  | .error e => .error e
  | .ok none => .ok s
  | .ok (some _) => .ok s

/-! ## Specification-level notions -/

/-- The embedded free list read off a slab: the first `k` block indices
reached from block `first` by following the link bytes. -/
def free_list (mem : List Nat) (block_size : Nat) : Nat → Nat → List Nat
  | _, 0 => []
  | first, k + 1 => first :: free_list mem block_size ((mem[first * block_size]?).getD 0) k

/-- What the free list and the outstanding pointers of one chunk satisfy. -/
structure ChunkInv (bs n : Nat) (c : Chunk) (out : List Nat) : Prop where
  size_ok : bs * n < SIZE_MOD
  slab_len : c.slab.length = bs * n
  count : c.m_available_blocks + out.length = n
  free_lt : ∀ i ∈ free_list c.slab bs c.m_first_available_block c.m_available_blocks, i < n
  free_nodup : (free_list c.slab bs c.m_first_available_block c.m_available_blocks).Nodup
  out_nodup : out.Nodup
  out_blocks : ∀ p ∈ out, ∃ i, i < n ∧ p = c.m_data_ptr + i * bs ∧
    i ∉ free_list c.slab bs c.m_first_available_block c.m_available_blocks

/-- The states a `FixedAllocator` passes through, with the pointers handed
out and not yet given back (`out`). -/
structure Inv (fa : FixedAllocator) (out : List Nat) : Prop where
  bs_pos : 0 < fa.m_block_size
  n_pos : 0 < fa.m_number_of_blocks
  n_le : fa.m_number_of_blocks ≤ 255
  shape :
    (fa.m_chunks = [] ∧ fa.m_last_allocation = none ∧ out = []) ∨
    (∃ c, fa.m_chunks = [c] ∧ fa.m_last_allocation = some 0 ∧
      fa.m_last_deallocation = some 0 ∧ ChunkInv fa.m_block_size fa.m_number_of_blocks c out)

/-- Use of a `FixedAllocator` as the interface intends it: construct it, call
`allocate`, and call `deallocate` only on a pointer that `allocate` returned
and that was not given back since; every call returns.  The list holds the
pointers outstanding. -/
inductive Reachable : FixedAllocator → List Nat → Prop where
  | start {bs cs : Nat} {fa : FixedAllocator} :
      FixedAllocator.mk_sized bs cs = .ok fa → Reachable fa []
  | alloc {fa fa1 : FixedAllocator} {out : List Nat} {heap : Option Slab} {p : Nat} :
      Reachable fa out → fa.allocate heap = .ok (p, fa1) → Reachable fa1 (p :: out)
  | free {fa fa1 : FixedAllocator} {out : List Nat} {p : Nat} :
      Reachable fa out → p ∈ out → fa.deallocate p = .ok fa1 → Reachable fa1 (out.erase p)

/-- The block a pointer lies in: the index of the chunk `has_block` finds and
the block index `Chunk::deallocate` computes for it. -/
def FixedAllocator.block_of (fa : FixedAllocator) (p : Nat) : Option (Nat × Nat) :=
  match fa.has_block p with
  | none => none
  | some i =>
    match fa.m_chunks[i]? with
    | none => none
    | some c => some (i, (p - c.m_data_ptr) / fa.m_block_size)

/-- `k` consecutive `allocate()` calls; call number `j` (from `0`) gets the
heap answer `heap j`.  The pointers returned are listed newest first. -/
def allocate_many (heap : Nat → Option Slab) :
    Nat → FixedAllocator → Except Fault (List Nat × FixedAllocator)
  | 0, fa => .ok ([], fa)
  | k + 1, fa =>
    match allocate_many heap k fa with
    | .error e => .error e
    | .ok (ps, fa1) =>
      match fa1.allocate (heap k) with
      | .error e => .error e
      | .ok (p, fa2) => .ok (p :: ps, fa2)

/-- `deallocate(p)` for each `p` of the list in turn. -/
def deallocate_many : FixedAllocator → List Nat → Except Fault FixedAllocator
  | fa, [] => .ok fa
  | fa, p :: ps =>
    match fa.deallocate p with
    | .error e => .error e
    | .ok fa1 => deallocate_many fa1 ps

/-- The free-list invariant of a chunk of `n` blocks of `bs` bytes: following
the link bytes from `m_first_available_block` for `m_available_blocks` steps
visits that many block indices, pairwise distinct and all below `n`. -/
structure FreeListOk (bs n : Nat) (c : Chunk) : Prop where
  walk_len :
    (free_list c.slab bs c.m_first_available_block c.m_available_blocks).length =
      c.m_available_blocks
  distinct : (free_list c.slab bs c.m_first_available_block c.m_available_blocks).Nodup
  in_range : ∀ i ∈ free_list c.slab bs c.m_first_available_block c.m_available_blocks, i < n

/-- `Chunk::deallocate(p, block_size)` for each `p` of the list in turn. -/
def Chunk.deallocate_all (block_size : Nat) : Chunk → List Nat → Except Fault Chunk
  | c, [] => .ok c
  | c, p :: ps =>
    match c.deallocate p block_size with
    | .error e => .error e
    | .ok c1 => Chunk.deallocate_all block_size c1 ps

/-- `k` consecutive `Chunk::allocate(block_size)` calls; the pointers returned
are listed in the order of the calls. -/
def Chunk.allocate_times (block_size : Nat) : Nat → Chunk → Except Fault (List Nat × Chunk)
  | 0, c => .ok ([], c)
  | k + 1, c =>
    match Chunk.allocate_times block_size k c with
    | .error e => .error e
    | .ok (ps, c1) =>
      match c1.allocate block_size with
      | .error e => .error e
      | .ok (p, c2) => .ok (ps ++ [p], c2)

/-- The data-model invariants `FixedAllocator::allocate` relies on: a
positive block size, a slab size that fits `size_t`, chunks that hold a
non-null slab of that size with a well-formed free list, and
`m_last_allocation`, when set, on a chunk of the sequence. -/
structure FixedAllocator.WellFormed (fa : FixedAllocator) : Prop where
  bs_pos : 0 < fa.m_block_size
  fits : fa.m_block_size * fa.m_number_of_blocks < SIZE_MOD
  chunks_ok : ∀ c ∈ fa.m_chunks, c.m_data_ptr ≠ 0 ∧
    c.slab.length = fa.m_block_size * fa.m_number_of_blocks ∧
    FreeListOk fa.m_block_size fa.m_number_of_blocks c
  alloc_in_range : ∀ i, fa.m_last_allocation = some i → i < fa.m_chunks.length

/-! ## Concrete states used by the witnesses -/

/-- A heap answer: a block at address `4096` filled with `0xCD`. -/
def demo_slab : Slab := ⟨4096, fun _ => 205⟩

/-- A slab of 4 blocks of 8 bytes as `Chunk::reset` leaves it when the bytes
held `0xCD` before: blocks `0, 1, 2` link to `1, 2, 3`, block `3` is untouched. -/
def demo_bytes : List Nat :=
  [1, 205, 205, 205, 205, 205, 205, 205, 2, 205, 205, 205, 205, 205, 205, 205,
   3, 205, 205, 205, 205, 205, 205, 205, 205, 205, 205, 205, 205, 205, 205, 205]

/-- `FixedAllocator(8, 16)`: block size 8, 4 blocks per chunk, no chunk. -/
def demo_fresh : FixedAllocator := { m_block_size := 8, m_number_of_blocks := 4 }

/-- `demo_fresh` after one `allocate()` (which returned `4096`). -/
def demo_one : FixedAllocator :=
  { m_block_size := 8, m_number_of_blocks := 4,
    m_chunks := [{ m_data_ptr := 4096, m_first_available_block := 1,
                   m_available_blocks := 3, slab := demo_bytes }],
    m_last_allocation := some 0, m_last_deallocation := some 0 }

/-- `demo_one` after a second `allocate()` (which returned `4104`). -/
def demo_two : FixedAllocator :=
  { m_block_size := 8, m_number_of_blocks := 4,
    m_chunks := [{ m_data_ptr := 4096, m_first_available_block := 2,
                   m_available_blocks := 2, slab := demo_bytes }],
    m_last_allocation := some 0, m_last_deallocation := some 0 }

/-- A chunk of 4 blocks of 8 bytes at `addr` with all its blocks handed out. -/
def demo_full_chunk (addr : Nat) : Chunk :=
  { m_data_ptr := addr, m_first_available_block := 205, m_available_blocks := 0,
    slab := demo_bytes }

/-- Block size 8, 4 blocks per chunk, three full chunks, the caches on the
back and the front chunk. -/
def demo_three_full : FixedAllocator :=
  { m_block_size := 8, m_number_of_blocks := 4,
    m_chunks := [demo_full_chunk 4096, demo_full_chunk 8192, demo_full_chunk 12288],
    m_last_allocation := some 2, m_last_deallocation := some 0 }

/-- `FixedAllocator(8, 4096)`: block size 8, 255 blocks per chunk, no chunk. -/
def demo_fresh255 : FixedAllocator := { m_block_size := 8, m_number_of_blocks := 255 }

/-- The pool the constructor is meant to build for `(4096, 256, 4)`:
64 allocators, the one at index `i` with block size `(i + 1) * 4`. -/
def demo_pool : List FixedAllocator :=
  (List.range 64).filterMap (fun i => (FixedAllocator.mk_sized ((i + 1) * 4) 4096).toOption)

/-- Alignment 4, largest pooled size 256, the pool as intended. -/
def demo_allocator : SmallObjectAllocator :=
  { m_object_alignment := 4, m_max_object_size := 256, m_pool := demo_pool }

/-- One size class of 8 bytes whose allocator has handed out the block at `4096`. -/
def demo_single_class : SmallObjectAllocator :=
  { m_object_alignment := 8, m_max_object_size := 8, m_pool := [demo_one] }

/-- Block size 3, 4 blocks per chunk, no chunk. -/
def demo_fresh3 : FixedAllocator := { m_block_size := 3, m_number_of_blocks := 4 }

/-- Alignment 3 and `SIZE_MAX` as the largest pooled size; the pool has one
allocator for each of the `6148914691236517205` classes, `(i + 1) * 3` bytes
at index `i`. -/
def demo_wide : SmallObjectAllocator :=
  { m_object_alignment := 3, m_max_object_size := 2 ^ 64 - 1,
    m_pool := demo_fresh3 ::
      (List.range' 1 6148914691236517204).map
        (fun i => { m_block_size := (i + 1) * 3, m_number_of_blocks := 4 }) }

/-- The chunk of `demo_two`: blocks 0 and 1 handed out, blocks 2 and 3 free. -/
def demo_two_chunk : Chunk :=
  { m_data_ptr := 4096, m_first_available_block := 2, m_available_blocks := 2,
    slab := demo_bytes }

/-- `demo_three_full` with `m_last_deallocation` on the back chunk. -/
def demo_three_back : FixedAllocator :=
  { demo_three_full with m_last_deallocation := some 2 }

/-- `demo_three_full` with `m_last_deallocation` on the middle chunk. -/
def demo_three_middle : FixedAllocator :=
  { demo_three_full with m_last_deallocation := some 1 }

/-- A full chunk at `4096` followed by a chunk at `8192` with blocks 2 and 3
free; `m_last_allocation` is on the full chunk. -/
def demo_full_then_free : FixedAllocator :=
  { m_block_size := 8, m_number_of_blocks := 4,
    m_chunks := [demo_full_chunk 4096, { demo_two_chunk with m_data_ptr := 8192 }],
    m_last_allocation := some 0, m_last_deallocation := some 0 }

/-- `demo_two` after a third `allocate()` (which returned `4112`). -/
def demo_three : FixedAllocator :=
  { m_block_size := 8, m_number_of_blocks := 4,
    m_chunks := [{ m_data_ptr := 4096, m_first_available_block := 3,
                   m_available_blocks := 1, slab := demo_bytes }],
    m_last_allocation := some 0, m_last_deallocation := some 0 }

/-- `demo_three` after a fourth `allocate()` (which returned `4120`): the one
chunk is full. -/
def demo_four : FixedAllocator :=
  { m_block_size := 8, m_number_of_blocks := 4,
    m_chunks := [demo_full_chunk 4096],
    m_last_allocation := some 0, m_last_deallocation := some 0 }

/-! ## Lemmas -/

theorem free_list_congr (mem mem1 : List Nat) (bs : Nat) :
    ∀ (k first : Nat),
      (∀ i ∈ free_list mem bs first k, mem1[i * bs]? = mem[i * bs]?) →
      free_list mem1 bs first k = free_list mem bs first k := by
  intro k
  induction k with
  | zero => intro first _; rfl
  | succ k ih =>
    intro first h
    have h0 : mem1[first * bs]? = mem[first * bs]? := h first (by simp [free_list])
    have ht := ih ((mem[first * bs]?).getD 0) (fun i hi => h i (by simp [free_list, hi]))
    simp [free_list, h0, ht]

theorem free_list_length (mem : List Nat) (bs : Nat) :
    ∀ (k first : Nat), (free_list mem bs first k).length = k := by
  intro k
  induction k with
  | zero => intro first; rfl
  | succ k ih => intro first; simp [free_list, ih]

theorem peek_ok {mem : List Nat} {off : Nat} (h : off < mem.length) :
    peek mem off = .ok mem[off] := by
  simp [peek, h]

theorem poke_ok {mem : List Nat} {off : Nat} (val : Nat) (h : off < mem.length) :
    poke mem off val = .ok (mem.set off val) := by
  simp [poke, h]

/-- The writes of `Chunk::reset` stay inside a slab of `blocks * block_size`
bytes and leave `k + 1` in the first byte of every block `k` but the last. -/
theorem reset_links_spec (bs : Nat) (hbs : 0 < bs) (mem : List Nat) :
    ∀ m : Nat, m * bs < mem.length + bs →
      ∃ mem1, (List.range m).foldlM (fun m k => poke m (k * bs) (k + 1)) mem = .ok mem1 ∧
        mem1.length = mem.length ∧ ∀ k, k < m → mem1[k * bs]? = some (k + 1) := by
  intro m
  induction m with
  | zero => intro _; exact ⟨mem, rfl, rfl, fun k hk => absurd hk (Nat.not_lt_zero k)⟩
  | succ m ih =>
    intro hm
    have hm1 : m * bs < mem.length := by
      have : (m + 1) * bs = m * bs + bs := by ring
      omega
    obtain ⟨mem1, hrun, hlen, hlink⟩ := ih (by omega)
    refine ⟨mem1.set (m * bs) (m + 1), ?_, by simp [hlen], ?_⟩
    · rw [List.range_succ, List.foldlM_append, hrun]
      simp [poke, hlen, hm1, bind, Except.bind, pure, Except.pure]
    · intro k hk
      by_cases hkm : k = m
      · subst hkm
        simp [hlen, hm1]
      · have hne : m * bs ≠ k * bs := by
          intro h
          exact hkm (Nat.eq_of_mul_eq_mul_right hbs h).symm
        rw [List.getElem?_set_ne hne]
        exact hlink k (by omega)

/-- On a slab whose blocks `k < n - 1` link to `k + 1`, the free list read
from block `first` is `first, first + 1, ...`. -/
theorem free_list_linked (mem : List Nat) (bs n : Nat)
    (hlink : ∀ k, k + 1 < n → mem[k * bs]? = some (k + 1)) :
    ∀ (k first : Nat), first + k ≤ n → free_list mem bs first k = List.range' first k := by
  intro k
  induction k with
  | zero => intro first _; rfl
  | succ k ih =>
    intro first h
    cases k with
    | zero => simp [free_list, List.range']
    | succ k =>
      have hl := hlink first (by omega)
      have := ih (first + 1) (by omega)
      simp only [free_list, hl, Option.getD_some] at this ⊢
      simp [List.range', this]

theorem chunk_initialize_inv {bs n : Nat} {heap : Option Slab} {c : Chunk}
    (h : Chunk.initialize {} bs n heap = .ok c) :
    0 < bs ∧ 0 < n ∧ c.m_available_blocks = n ∧ ChunkInv bs n c [] := by
  unfold Chunk.initialize at h
  by_cases hpos : bs > 0 ∧ n > 0
  · obtain ⟨hbs, hn⟩ := hpos
    simp only [hbs, hn, and_self, not_true_eq_false, if_false] at h
    by_cases hov : (bs * n) % SIZE_MOD / bs = n
    · have hsz : bs * n < SIZE_MOD := by
        by_contra hge
        have h1 : (bs * n) % SIZE_MOD < SIZE_MOD := Nat.mod_lt _ (by norm_num)
        have h2 : n * bs ≤ (bs * n) % SIZE_MOD := by
          have := Nat.div_mul_le_self ((bs * n) % SIZE_MOD) bs
          rw [hov] at this
          exact this
        have h3 : n * bs = bs * n := Nat.mul_comm _ _
        omega
      have hmod : (bs * n) % SIZE_MOD = bs * n := Nat.mod_eq_of_lt hsz
      cases heap with
      | none => simp [hov] at h
      | some s =>
        simp only [hov, ne_eq, not_true_eq_false, if_false] at h
        simp only [Chunk.reset, hbs, hn, and_self, not_true_eq_false, if_false, reset_links,
          hmod] at h
        have hlen0 : ((List.range (bs * n)).map (fun i => s.junk i % SMALL_MOD)).length = bs * n := by
          simp
        obtain ⟨mem1, hrun, hlen, hlink⟩ :=
          reset_links_spec bs hbs ((List.range (bs * n)).map (fun i => s.junk i % SMALL_MOD)) (n - 1)
            (by
              rw [hlen0]
              have : (n - 1) * bs ≤ n * bs := Nat.mul_le_mul_right _ (by omega)
              have h3 : n * bs = bs * n := Nat.mul_comm _ _
              omega)
        rw [hrun] at h
        simp only [Except.ok.injEq] at h
        subst h
        have hfl : free_list mem1 bs 0 n = List.range' 0 n :=
          free_list_linked mem1 bs n (fun k hk => hlink k (by omega)) n 0 (by omega)
        refine ⟨hbs, hn, rfl, ?_⟩
        constructor
        · exact hsz
        · simp [hlen]
        · simp
        · intro i hi
          simp only [hfl] at hi
          simp at hi
          omega
        · simp only [hfl]
          exact List.nodup_range' 0 n
        · exact List.nodup_nil
        · intro p hp
          simp at hp
    · simp [hov] at h
  · simp [hpos] at h

theorem chunk_initialize_ok {bs n : Nat} (s : Slab) (hbs : 0 < bs) (hn : 0 < n)
    (hsz : bs * n < SIZE_MOD) :
    ∃ c, Chunk.initialize {} bs n (some s) = .ok c ∧ c.m_data_ptr = s.addr ∧
      c.m_first_available_block = 0 := by
  have hmod : (bs * n) % SIZE_MOD = bs * n := Nat.mod_eq_of_lt hsz
  have hdiv : bs * n / bs = n := Nat.mul_div_cancel_left n hbs
  have hlen0 : ((List.range (bs * n)).map (fun i => s.junk i % SMALL_MOD)).length = bs * n := by
    simp
  obtain ⟨mem1, hrun, hlen, hlink⟩ :=
    reset_links_spec bs hbs ((List.range (bs * n)).map (fun i => s.junk i % SMALL_MOD)) (n - 1)
      (by
        rw [hlen0]
        have : (n - 1) * bs ≤ n * bs := Nat.mul_le_mul_right _ (by omega)
        have h3 : n * bs = bs * n := Nat.mul_comm _ _
        omega)
  refine ⟨{ m_data_ptr := s.addr, m_first_available_block := 0, m_available_blocks := n,
            slab := mem1 }, ?_, rfl, rfl⟩
  simp only [ Chunk.initialize, hbs, hn, and_self, not_true_eq_false, if_false, hmod, hdiv,
    ne_eq, Chunk.reset, reset_links, hrun]

/-- `Chunk::allocate` on a chunk with a free block: it hands out the head of
the free list and keeps the chunk invariant. -/
theorem chunk_allocate_inv {bs n : Nat} {c : Chunk} {out : List Nat}
    (hc : ChunkInv bs n c out) (hbs : 0 < bs) (hav : 0 < c.m_available_blocks) :
    c.m_first_available_block < n ∧
    c.m_first_available_block * bs < c.slab.length ∧
    ∃ b, c.slab[c.m_first_available_block * bs]? = some b ∧
      c.allocate bs = .ok (c.m_data_ptr + c.m_first_available_block * bs,
        { c with m_first_available_block := b,
                 m_available_blocks := c.m_available_blocks - 1 }) ∧
      ChunkInv bs n { c with m_first_available_block := b,
                             m_available_blocks := c.m_available_blocks - 1 }
        ((c.m_data_ptr + c.m_first_available_block * bs) :: out) := by
  obtain ⟨k, hk⟩ : ∃ k, c.m_available_blocks = k + 1 := ⟨c.m_available_blocks - 1, by omega⟩
  have hfl : free_list c.slab bs c.m_first_available_block c.m_available_blocks =
      c.m_first_available_block ::
        free_list c.slab bs ((c.slab[c.m_first_available_block * bs]?).getD 0) k := by
    rw [hk]; rfl
  have hff : c.m_first_available_block < n := hc.free_lt _ (by rw [hfl]; simp)
  have hoff : c.m_first_available_block * bs < c.slab.length := by
    rw [hc.slab_len, Nat.mul_comm bs n]
    exact Nat.mul_lt_mul_of_pos_right hff hbs
  have hlt : c.m_first_available_block * bs < SIZE_MOD := by
    have := hc.size_ok
    rw [hc.slab_len] at hoff
    omega
  have hmod : (c.m_first_available_block * bs) % SIZE_MOD = c.m_first_available_block * bs :=
    Nat.mod_eq_of_lt hlt
  refine ⟨hff, hoff, c.slab[c.m_first_available_block * bs], by simp [hoff], ?_, ?_⟩
  · have hnot : ¬ c.m_available_blocks < 1 := by omega
    simp only [Chunk.allocate, hbs, gt_iff_lt, not_true_eq_false, if_false, hnot, hmod,
      peek_ok hoff]
  · have hget : (c.slab[c.m_first_available_block * bs]?).getD 0 =
        c.slab[c.m_first_available_block * bs] := by simp [hoff]
    have hnd := hc.free_nodup
    rw [hfl, hget] at hnd
    have hk1 : c.m_available_blocks - 1 = k := by omega
    constructor
    · exact hc.size_ok
    · exact hc.slab_len
    · have := hc.count
      simp only [List.length_cons]
      omega
    · intro i hi
      simp only [hk1] at hi
      exact hc.free_lt i (by rw [hfl, hget]; exact List.mem_cons_of_mem _ hi)
    · simp only [hk1]
      exact (List.nodup_cons.mp hnd).2
    · refine List.nodup_cons.mpr ⟨?_, hc.out_nodup⟩
      intro hmem
      obtain ⟨i, _, hp, hni⟩ := hc.out_blocks _ hmem
      have : c.m_first_available_block = i := by
        have h1 : c.m_first_available_block * bs = i * bs := by omega
        exact Nat.eq_of_mul_eq_mul_right hbs h1
      apply hni
      rw [hfl, ← this]
      simp
    · intro p hp
      simp only [hk1]
      rcases List.mem_cons.mp hp with hp | hp
      · exact ⟨c.m_first_available_block, hff, hp, (List.nodup_cons.mp hnd).1⟩
      · obtain ⟨i, hi, hpi, hni⟩ := hc.out_blocks p hp
        refine ⟨i, hi, hpi, ?_⟩
        intro hmem
        apply hni
        rw [hfl, hget]
        exact List.mem_cons_of_mem _ hmem

/-- `Chunk::deallocate` of an outstanding pointer: the block becomes the head
of the free list and the chunk invariant is kept. -/
theorem chunk_deallocate_inv {bs n : Nat} {c : Chunk} {out : List Nat} {p : Nat}
    (hc : ChunkInv bs n c out) (hbs : 0 < bs) (hn : n ≤ 255) (hp : p ∈ out) :
    ∃ i, i < n ∧ p = c.m_data_ptr + i * bs ∧
      c.deallocate p bs = .ok
        { c with slab := c.slab.set (i * bs) c.m_first_available_block,
                 m_first_available_block := i,
                 m_available_blocks := c.m_available_blocks + 1 } ∧
      c.m_available_blocks + 1 ≤ n ∧
      ChunkInv bs n
        { c with slab := c.slab.set (i * bs) c.m_first_available_block,
                 m_first_available_block := i,
                 m_available_blocks := c.m_available_blocks + 1 }
        (out.erase p) := by
  obtain ⟨i, hi, hpi, hni⟩ := hc.out_blocks p hp
  have hlen : 0 < out.length := List.length_pos_of_mem hp
  have hav : c.m_available_blocks + 1 ≤ n := by have := hc.count; omega
  have hoff : i * bs < c.slab.length := by
    rw [hc.slab_len, Nat.mul_comm bs n]
    exact Nat.mul_lt_mul_of_pos_right hi hbs
  have hdiff : p - c.m_data_ptr = i * bs := by omega
  have hge : p ≥ c.m_data_ptr := by omega
  have hmod0 : i * bs % bs = 0 := Nat.mul_mod_left i bs
  have hdiv : i * bs / bs = i := Nat.mul_div_cancel i hbs
  have hi256 : i % SMALL_MOD = i := Nat.mod_eq_of_lt (by show i < 256; omega)
  have hav256 : (c.m_available_blocks + 1) % SMALL_MOD = c.m_available_blocks + 1 :=
    Nat.mod_eq_of_lt (by show c.m_available_blocks + 1 < 256; omega)
  refine ⟨i, hi, hpi, ?_, hav, ?_⟩
  · simp only [Chunk.deallocate, hbs, hge, gt_iff_lt, ge_iff_le, and_self, not_true_eq_false,
      if_false, hdiff, hmod0, ne_eq, poke_ok _ hoff, hdiv, hi256, hav256]
  · have hsame : free_list (c.slab.set (i * bs) c.m_first_available_block) bs
          c.m_first_available_block c.m_available_blocks =
        free_list c.slab bs c.m_first_available_block c.m_available_blocks := by
      apply free_list_congr
      intro j hj
      have hne : i * bs ≠ j * bs := by
        intro h
        have : i = j := Nat.eq_of_mul_eq_mul_right hbs h
        exact hni (this ▸ hj)
      exact List.getElem?_set_ne hne
    have hfl : free_list (c.slab.set (i * bs) c.m_first_available_block) bs i
          (c.m_available_blocks + 1) =
        i :: free_list c.slab bs c.m_first_available_block c.m_available_blocks := by
      simp only [free_list]
      rw [List.getElem?_set_self hoff, Option.getD_some, hsame]
    constructor
    · exact hc.size_ok
    · simp [hc.slab_len]
    · have := hc.count
      have h1 : (out.erase p).length = out.length - 1 := List.length_erase_of_mem hp
      show c.m_available_blocks + 1 + (out.erase p).length = n
      omega
    · intro j hj
      rw [hfl] at hj
      rcases List.mem_cons.mp hj with h | h
      · omega
      · exact hc.free_lt j h
    · rw [hfl]
      exact List.nodup_cons.mpr ⟨hni, hc.free_nodup⟩
    · exact hc.out_nodup.erase p
    · intro q hq
      rw [hfl]
      have hq2 := (List.Nodup.mem_erase_iff hc.out_nodup).mp hq
      obtain ⟨j, hj, hqj, hnj⟩ := hc.out_blocks q hq2.2
      refine ⟨j, hj, hqj, ?_⟩
      intro hmem
      rcases List.mem_cons.mp hmem with h | h
      · apply hq2.1
        rw [hqj, hpi, h]
      · exact hnj h

theorem mk_sized_inv {bs cs : Nat} {fa : FixedAllocator}
    (h : FixedAllocator.mk_sized bs cs = .ok fa) :
    Inv fa [] ∧ fa.m_chunks = [] ∧ fa.m_block_size = bs ∧ 4 ≤ fa.m_number_of_blocks := by
  unfold FixedAllocator.mk_sized FixedAllocator.initialize at h
  by_cases h1 : bs > 0 ∧ cs ≥ bs
  · by_cases h2 : cs / bs > 0
    · simp only [h1, and_self, not_true_eq_false, if_false, h2] at h
      simp only [Except.ok.injEq] at h
      subst h
      have hn : 4 ≤ (if cs / bs > MAX_BLOCKS_PER_CHUNK then MAX_BLOCKS_PER_CHUNK
          else if cs / bs < MIN_BLOCKS_PER_CHUNK then MIN_BLOCKS_PER_CHUNK else cs / bs) % SMALL_MOD ∧
          (if cs / bs > MAX_BLOCKS_PER_CHUNK then MAX_BLOCKS_PER_CHUNK
          else if cs / bs < MIN_BLOCKS_PER_CHUNK then MIN_BLOCKS_PER_CHUNK else cs / bs) % SMALL_MOD ≤ 255 := by
        simp only [MAX_BLOCKS_PER_CHUNK, MIN_BLOCKS_PER_CHUNK, SMALL_MOD]
        split_ifs <;> omega
      refine ⟨⟨h1.1, by show 0 < _ % SMALL_MOD; omega, hn.2, Or.inl ⟨rfl, rfl, rfl⟩⟩, rfl, rfl, hn.1⟩
    · simp [h1, h2] at h
  · simp [h1] at h

/-- With one chunk that has a free block and `m_last_allocation` on it,
`allocate` takes the head of that chunk's free list. -/
theorem allocate_of_free {fa : FixedAllocator} {c : Chunk} {out : List Nat}
    (hch : fa.m_chunks = [c]) (hla : fa.m_last_allocation = some 0)
    (hbs : 0 < fa.m_block_size)
    (hc : ChunkInv fa.m_block_size fa.m_number_of_blocks c out)
    (hav : 0 < c.m_available_blocks) (heap : Option Slab) :
    ∃ b, c.slab[c.m_first_available_block * fa.m_block_size]? = some b ∧
      fa.allocate heap = .ok (c.m_data_ptr + c.m_first_available_block * fa.m_block_size,
        { fa with m_chunks := [{ c with m_first_available_block := b,
                                        m_available_blocks := c.m_available_blocks - 1 }] }) ∧
      ChunkInv fa.m_block_size fa.m_number_of_blocks
        { c with m_first_available_block := b,
                 m_available_blocks := c.m_available_blocks - 1 }
        ((c.m_data_ptr + c.m_first_available_block * fa.m_block_size) :: out) := by
  obtain ⟨_, _, b, hb, halloc, hinv⟩ := chunk_allocate_inv hc hbs hav
  refine ⟨b, hb, ?_, hinv⟩
  have hne : ¬ c.m_available_blocks = 0 := by omega
  simp [FixedAllocator.allocate, hla, hch, hne, hav, halloc]

/-- With every chunk full and `m_last_allocation` set, `allocate` appends
nothing and stops at `assert(m_last_allocation->m_available_blocks > 0)`. -/
theorem allocate_of_full {fa : FixedAllocator} {i : Nat} {c : Chunk}
    (hla : fa.m_last_allocation = some i) (hci : fa.m_chunks[i]? = some c)
    (hfull : ∀ d ∈ fa.m_chunks, d.m_available_blocks = 0) (heap : Option Slab) :
    fa.allocate heap = .error .assertion := by
  have hscan : ∀ (l : List Chunk) (j : Nat), (∀ d ∈ l, d.m_available_blocks = 0) →
      scan_available l j = none := by
    intro l
    induction l with
    | nil => intro j _; rfl
    | cons d l ih =>
      intro j h
      have hd : d.m_available_blocks = 0 := h d (by simp)
      simp only [scan_available, hd, gt_iff_lt, lt_self_iff_false, if_false]
      exact ih (j + 1) (fun e he => h e (by simp [he]))
  have hc0 : c.m_available_blocks = 0 := hfull c (List.getElem?_mem hci)
  simp [FixedAllocator.allocate, hla, hci, hc0, FixedAllocator.refill, hscan _ 0 hfull]

theorem allocate_inv {fa : FixedAllocator} {out : List Nat} {heap : Option Slab}
    {p : Nat} {fa1 : FixedAllocator}
    (hinv : Inv fa out) (h : fa.allocate heap = .ok (p, fa1)) :
    Inv fa1 (p :: out) ∧ fa1.m_block_size = fa.m_block_size ∧
      fa1.m_number_of_blocks = fa.m_number_of_blocks := by
  rcases hinv.shape with ⟨hch, hla, hout⟩ | ⟨c, hch, hla, hld, hc⟩
  · -- no chunk yet: a chunk is appended and its first block handed out
    subst hout
    cases hini : Chunk.initialize {} fa.m_block_size fa.m_number_of_blocks heap with
    | error e =>
      simp [FixedAllocator.allocate, hla, hch, FixedAllocator.refill, scan_available, hini] at h
    | ok c =>
      obtain ⟨hbs, hn, havn, hc⟩ := chunk_initialize_inv hini
      have hav : 0 < c.m_available_blocks := by omega
      obtain ⟨_, _, b, hb, halloc, hinv1⟩ := chunk_allocate_inv hc hbs hav
      have hne : ¬ c.m_available_blocks = 0 := by omega
      simp [FixedAllocator.allocate, hla, hch, FixedAllocator.refill, scan_available, hini,
        hav, halloc] at h
      obtain ⟨hp, hfa⟩ := h
      subst hp hfa
      exact ⟨⟨hinv.bs_pos, hinv.n_pos, hinv.n_le, Or.inr ⟨_, rfl, rfl, rfl, hinv1⟩⟩, rfl, rfl⟩
  · by_cases hav : 0 < c.m_available_blocks
    · obtain ⟨b, hb, halloc, hinv1⟩ := allocate_of_free hch hla hinv.bs_pos hc hav heap
      rw [halloc] at h
      simp only [Except.ok.injEq, Prod.mk.injEq] at h
      obtain ⟨hp, hfa⟩ := h
      subst hp hfa
      exact ⟨⟨hinv.bs_pos, hinv.n_pos, hinv.n_le, Or.inr ⟨_, rfl, hla, hld, hinv1⟩⟩, rfl, rfl⟩
    · have hfull : ∀ d ∈ fa.m_chunks, d.m_available_blocks = 0 := by
        intro d hd
        rw [hch] at hd
        simp at hd
        subst hd
        omega
      have := allocate_of_full hla (by rw [hch]; rfl) hfull heap
      rw [this] at h
      cases h

/-- The vicinity search returns at once when the chunk under
`m_last_deallocation` owns the pointer. -/
theorem find_in_vicinity_hit {fa : FixedAllocator} {d : Nat} {c : Chunk} {ptr : Nat}
    (hld : fa.m_last_deallocation = some d) (hcd : fa.m_chunks[d]? = some c)
    (hown : c.has_block ptr ((fa.m_number_of_blocks * fa.m_block_size) % SIZE_MOD) = true) :
    fa.find_in_vicinity ptr = .ok (some d) := by
  have hne : fa.m_chunks.isEmpty = false := by
    cases hl : fa.m_chunks with
    | nil => rw [hl] at hcd; simp at hcd
    | cons a l => rfl
  simp [FixedAllocator.find_in_vicinity, hne, hld, FixedAllocator.vicinity_loop,
    FixedAllocator.vicinity_step, hcd, hown]

theorem deallocate_inv {fa : FixedAllocator} {out : List Nat} {p : Nat}
    (hinv : Inv fa out) (hp : p ∈ out) :
    ∃ c i, fa.m_chunks = [c] ∧ i < fa.m_number_of_blocks ∧
      p = c.m_data_ptr + i * fa.m_block_size ∧
      fa.deallocate p = .ok
        { fa with m_last_deallocation := some 0,
                  m_chunks := [{ c with slab := c.slab.set (i * fa.m_block_size)
                                            c.m_first_available_block,
                                        m_first_available_block := i,
                                        m_available_blocks := c.m_available_blocks + 1 }] } ∧
      Inv { fa with m_last_deallocation := some 0,
                    m_chunks := [{ c with slab := c.slab.set (i * fa.m_block_size)
                                              c.m_first_available_block,
                                          m_first_available_block := i,
                                          m_available_blocks := c.m_available_blocks + 1 }] }
        (out.erase p) := by
  rcases hinv.shape with ⟨_, _, hout⟩ | ⟨c, hch, hla, hld, hc⟩
  · subst hout
    simp at hp
  · obtain ⟨i, hi, hpi, hde, hav, hc1⟩ := chunk_deallocate_inv hc hinv.bs_pos hinv.n_le hp
    refine ⟨c, i, hch, hi, hpi, ?_, ?_⟩
    · have hlen : (fa.m_number_of_blocks * fa.m_block_size) % SIZE_MOD =
          fa.m_number_of_blocks * fa.m_block_size := by
        apply Nat.mod_eq_of_lt
        have := hc.size_ok
        rwa [Nat.mul_comm] at this
      have hown : c.has_block p ((fa.m_number_of_blocks * fa.m_block_size) % SIZE_MOD) = true := by
        have : i * fa.m_block_size < fa.m_number_of_blocks * fa.m_block_size :=
          Nat.mul_lt_mul_of_pos_right hi hinv.bs_pos
        simp only [Chunk.has_block, hlen, Bool.and_eq_true, decide_eq_true_eq]
        omega
      have hfind := find_in_vicinity_hit hld (by rw [hch]; rfl) hown
      have hne : fa.m_chunks.isEmpty = false := by rw [hch]; rfl
      have hnot : ¬ c.m_available_blocks + 1 > fa.m_number_of_blocks := by omega
      simp [FixedAllocator.deallocate, hne, hfind, hch, hde, hnot]
    · exact ⟨hinv.bs_pos, hinv.n_pos, hinv.n_le, Or.inr ⟨_, rfl, hla, rfl, hc1⟩⟩

/-- Once `lower` is exhausted a pass that does not end the loop leaves the
cursors as they are. -/
theorem vicinity_step_lower_none (fa : FixedAllocator) (ptr len : Nat) (u l1 u1 : Option Nat)
    (h : fa.vicinity_step ptr len none u = .next l1 u1) : l1 = none ∧ u1 = u := by
  cases u with
  | none =>
    simp only [FixedAllocator.vicinity_step] at h
    cases h
    exact ⟨rfl, rfl⟩
  | some x =>
    simp only [FixedAllocator.vicinity_step] at h
    cases hx : fa.m_chunks[x]? with
    | none => rw [hx] at h; cases h
    | some c =>
      rw [hx] at h
      by_cases hb : c.has_block ptr len = true
      · simp [hb] at h
      · simp [hb] at h
        exact ⟨h.1.symm, h.2.symm⟩

/-- A pass that does not end the loop moves `lower` one down (to `nullptr`
from the front) and leaves `upper` alone. -/
theorem vicinity_step_lower_some (fa : FixedAllocator) (ptr len l : Nat) (u l1 u1 : Option Nat)
    (h : fa.vicinity_step ptr len (some l) u = .next l1 u1) :
    l1 = (if l = 0 then none else some (l - 1)) ∧ u1 = u := by
  simp only [FixedAllocator.vicinity_step] at h
  cases hl : fa.m_chunks[l]? with
  | none => rw [hl] at h; cases u <;> cases h
  | some c =>
    rw [hl] at h
    by_cases hb : c.has_block ptr len = true
    · simp [hb] at h
    · by_cases h0 : l = 0
      · simp only [hb, h0, if_true, Bool.false_eq_true, if_false] at h
        cases u with
        | none => cases h; exact ⟨by simp [h0], rfl⟩
        | some x =>
          simp only at h
          cases hx : fa.m_chunks[x]? with
          | none => rw [hx] at h; cases h
          | some cx =>
            rw [hx] at h
            by_cases hbx : cx.has_block ptr len = true
            · simp [hbx] at h
            · simp [hbx] at h
              exact ⟨by simp [h0, h.1], h.2.symm⟩
      · simp only [hb, h0, Bool.false_eq_true, if_false] at h
        cases u with
        | none => cases h; exact ⟨by simp [h0], rfl⟩
        | some x =>
          simp only at h
          cases hx : fa.m_chunks[x]? with
          | none => rw [hx] at h; cases h
          | some cx =>
            rw [hx] at h
            by_cases hbx : cx.has_block ptr len = true
            · simp [hbx] at h
            · simp [hbx] at h
              exact ⟨by simp [h0, h.1], h.2.symm⟩

theorem vicinity_loop_succ (fa : FixedAllocator) (ptr len fuel : Nat) (l u : Option Nat) :
    fa.vicinity_loop ptr len (fuel + 1) l u =
      match fa.vicinity_step ptr len l u with
      | .found i => some (.ok i)
      | .fault f => some (.error f)
      | .next l1 u1 => fa.vicinity_loop ptr len fuel l1 u1 := rfl

/-- With `lower` exhausted, a loop that survives one pass survives any number. -/
theorem vicinity_loop_stuck (fa : FixedAllocator) (ptr len : Nat) (u : Option Nat)
    (h : fa.vicinity_loop ptr len 1 none u = none) :
    ∀ fuel, fa.vicinity_loop ptr len fuel none u = none := by
  intro fuel
  induction fuel with
  | zero => rfl
  | succ k ih =>
    rw [vicinity_loop_succ] at h ⊢
    cases hs : fa.vicinity_step ptr len none u with
    | found i => rw [hs] at h; cases h
    | fault f => rw [hs] at h; cases h
    | next l1 u1 =>
      obtain ⟨h1, h2⟩ := vicinity_step_lower_none fa ptr len u l1 u1 hs
      subst h1 h2
      exact ih

/-- Fewer passes do not end a loop that more passes leave running. -/
theorem vicinity_loop_none_mono (fa : FixedAllocator) (ptr len : Nat) :
    ∀ (fuel : Nat) (l u : Option Nat), fa.vicinity_loop ptr len (fuel + 1) l u = none →
      fa.vicinity_loop ptr len fuel l u = none := by
  intro fuel
  induction fuel with
  | zero => intro l u _; rfl
  | succ k ih =>
    intro l u h
    rw [vicinity_loop_succ] at h ⊢
    cases hs : fa.vicinity_step ptr len l u with
    | found i => rw [hs] at h; cases h
    | fault f => rw [hs] at h; cases h
    | next l1 u1 =>
      rw [hs] at h
      exact ih l1 u1 h

/-- The loop of `find_in_vicinity` has no exit of its own: when it is still
running after `l + 2` passes from `lower` at index `l`, it runs for ever. -/
theorem vicinity_loop_none_forever (fa : FixedAllocator) (ptr len : Nat) (u : Option Nat) :
    ∀ l : Nat, fa.vicinity_loop ptr len (l + 2) (some l) u = none →
      ∀ fuel, fa.vicinity_loop ptr len fuel (some l) u = none := by
  intro l
  induction l with
  | zero =>
    intro h fuel
    cases fuel with
    | zero => rfl
    | succ k =>
      rw [vicinity_loop_succ] at h ⊢
      cases hs : fa.vicinity_step ptr len (some 0) u with
      | found i => rw [hs] at h; cases h
      | fault f => rw [hs] at h; cases h
      | next l1 u1 =>
        rw [hs] at h
        obtain ⟨h1, h2⟩ := vicinity_step_lower_some fa ptr len 0 u l1 u1 hs
        simp only [if_true] at h1
        subst h1 h2
        exact vicinity_loop_stuck fa ptr len u1 h k
  | succ l ih =>
    intro h fuel
    cases fuel with
    | zero => rfl
    | succ k =>
      rw [vicinity_loop_succ] at h ⊢
      cases hs : fa.vicinity_step ptr len (some (l + 1)) u with
      | found i => rw [hs] at h; cases h
      | fault f => rw [hs] at h; cases h
      | next l1 u1 =>
        rw [hs] at h
        obtain ⟨h1, h2⟩ := vicinity_step_lower_some fa ptr len (l + 1) u l1 u1 hs
        simp only [Nat.add_one_ne_zero, if_false, Nat.add_sub_cancel] at h1
        subst h1 h2
        exact ih h k

/-- The pass budget `m_chunks.length + 1` of `find_in_vicinity` loses nothing:
a loop it leaves running runs for ever. -/
theorem find_in_vicinity_budget (fa : FixedAllocator) (ptr len d : Nat) (u : Option Nat)
    (h : fa.vicinity_loop ptr len (fa.m_chunks.length + 1) (some d) u = none) :
    ∀ fuel, fa.vicinity_loop ptr len fuel (some d) u = none := by
  have hd : d < fa.m_chunks.length := by
    by_contra hge
    have hnone : fa.m_chunks[d]? = none := List.getElem?_eq_none (by omega)
    rw [vicinity_loop_succ] at h
    have hs : fa.vicinity_step ptr len (some d) u = .fault .undefined := by
      simp only [FixedAllocator.vicinity_step, hnone]
    rw [hs] at h
    cases h
  obtain ⟨k, hk⟩ : ∃ k, fa.m_chunks.length + 1 = (d + 2) + k :=
    ⟨fa.m_chunks.length - d - 1, by omega⟩
  rw [hk] at h
  have hdown : ∀ j, fa.vicinity_loop ptr len (d + 2 + j) (some d) u = none →
      fa.vicinity_loop ptr len (d + 2) (some d) u = none := by
    intro j
    induction j with
    | zero => intro hj; exact hj
    | succ j ihj =>
      intro hj
      exact ihj (vicinity_loop_none_mono fa ptr len (d + 2 + j) (some d) u hj)
  exact vicinity_loop_none_forever fa ptr len u d (hdown k h)

theorem set_same {l : List Nat} {i a : Nat} (h : l[i]? = some a) : l.set i a = l := by
  apply List.ext_getElem?
  intro j
  by_cases hij : i = j
  · subst hij
    rw [List.getElem?_set, h]
    simp
    exact (List.getElem?_eq_some.mp h).1
  · rw [List.getElem?_set_ne hij]

theorem reachable_inv {fa : FixedAllocator} {out : List Nat} (h : Reachable fa out) :
    Inv fa out := by
  induction h with
  | start h0 => exact (mk_sized_inv h0).1
  | alloc _ ha ih => exact (allocate_inv ih ha).1
  | free _ hp hd ih =>
    obtain ⟨c, i, _, _, _, hde, hinv⟩ := deallocate_inv ih hp
    rw [hde] at hd
    simp only [Except.ok.injEq] at hd
    subst hd
    exact hinv

/-- Under the invariant an outstanding pointer is the start of a block of the
one chunk, and `block_of` finds that block. -/
theorem block_of_outstanding {fa : FixedAllocator} {out : List Nat} {c : Chunk}
    (hinv : Inv fa out) (hch : fa.m_chunks = [c])
    (hc : ChunkInv fa.m_block_size fa.m_number_of_blocks c out) {p : Nat} (hp : p ∈ out) :
    ∃ i, i < fa.m_number_of_blocks ∧ p = c.m_data_ptr + i * fa.m_block_size ∧
      fa.block_of p = some (0, i) := by
  obtain ⟨i, hi, hpi, _⟩ := hc.out_blocks p hp
  refine ⟨i, hi, hpi, ?_⟩
  have hlen : (fa.m_number_of_blocks * fa.m_block_size) % SIZE_MOD =
      fa.m_number_of_blocks * fa.m_block_size := by
    apply Nat.mod_eq_of_lt
    have := hc.size_ok
    rwa [Nat.mul_comm] at this
  have hown : c.has_block p (fa.m_number_of_blocks * fa.m_block_size) = true := by
    have : i * fa.m_block_size < fa.m_number_of_blocks * fa.m_block_size :=
      Nat.mul_lt_mul_of_pos_right hi hinv.bs_pos
    simp only [Chunk.has_block, Bool.and_eq_true, decide_eq_true_eq]
    omega
  have hdiv : (p - c.m_data_ptr) / fa.m_block_size = i := by
    have : p - c.m_data_ptr = i * fa.m_block_size := by omega
    rw [this]
    exact Nat.mul_div_cancel i hinv.bs_pos
  simp [FixedAllocator.block_of, FixedAllocator.has_block, hch, hlen, scan_owner, hown, hdiv]

theorem allocate_many_reach {heap : Nat → Option Slab} {fa : FixedAllocator} {out : List Nat}
    (hr : Reachable fa out) :
    ∀ (k : Nat) (ps : List Nat) (fa1 : FixedAllocator),
      allocate_many heap k fa = .ok (ps, fa1) → Reachable fa1 (ps ++ out) ∧ ps.length = k := by
  intro k
  induction k with
  | zero =>
    intro ps fa1 h
    simp only [allocate_many, Except.ok.injEq, Prod.mk.injEq] at h
    obtain ⟨h1, h2⟩ := h
    subst h1 h2
    exact ⟨hr, rfl⟩
  | succ k ih =>
    intro ps fa1 h
    simp only [allocate_many] at h
    cases hk : allocate_many heap k fa with
    | error e => rw [hk] at h; cases h
    | ok r =>
      obtain ⟨qs, fa2⟩ := r
      rw [hk] at h
      simp only at h
      cases ha : fa2.allocate (heap k) with
      | error e => rw [ha] at h; cases h
      | ok r2 =>
        obtain ⟨p, fa3⟩ := r2
        rw [ha] at h
        simp only [Except.ok.injEq, Prod.mk.injEq] at h
        obtain ⟨h1, h2⟩ := h
        subst h1 h2
        obtain ⟨hr2, hlen⟩ := ih qs fa2 hk
        exact ⟨Reachable.alloc hr2 ha, by simp [hlen]⟩

/-- Under the invariant `allocate` returns whenever a block is left, given
that the heap supplies the slab for the first chunk and the slab size fits
`size_t`. -/
theorem allocate_progress {fa : FixedAllocator} {out : List Nat} {heap : Option Slab}
    (hinv : Inv fa out) (hsz : fa.m_block_size * fa.m_number_of_blocks < SIZE_MOD)
    (hheap : fa.m_chunks = [] → ∃ s, heap = some s)
    (hroom : out.length < fa.m_number_of_blocks) :
    ∃ p fa1, fa.allocate heap = .ok (p, fa1) := by
  rcases hinv.shape with ⟨hch, hla, _⟩ | ⟨c, hch, hla, _, hc⟩
  · obtain ⟨s, hs⟩ := hheap hch
    subst hs
    obtain ⟨c, hini, _, _⟩ := chunk_initialize_ok s hinv.bs_pos hinv.n_pos hsz
    obtain ⟨_, _, havn, hc⟩ := chunk_initialize_inv hini
    have hav : 0 < c.m_available_blocks := by have := hinv.n_pos; omega
    obtain ⟨_, _, b, hb, halloc, _⟩ := chunk_allocate_inv hc hinv.bs_pos hav
    refine ⟨c.m_data_ptr + c.m_first_available_block * fa.m_block_size,
      { fa with m_chunks := [{ c with m_first_available_block := b,
                                      m_available_blocks := c.m_available_blocks - 1 }],
                m_last_allocation := some 0,
                m_last_deallocation := some 0 }, ?_⟩
    simp [FixedAllocator.allocate, hla, hch, FixedAllocator.refill, scan_available, hini,
      hav, halloc]
  · have hav : 0 < c.m_available_blocks := by have := hc.count; omega
    obtain ⟨b, _, halloc, _⟩ := allocate_of_free hch hla hinv.bs_pos hc hav heap
    exact ⟨_, _, halloc⟩

theorem allocate_many_succ (heap : Nat → Option Slab) (k : Nat) (fa : FixedAllocator) :
    allocate_many heap (k + 1) fa =
      match allocate_many heap k fa with
      | .error e => .error e
      | .ok (ps, fa1) =>
        match fa1.allocate (heap k) with
        | .error e => .error e
        | .ok (p, fa2) => .ok (p :: ps, fa2) := rfl

theorem allocate_many_error_succ {heap : Nat → Option Slab} {fa : FixedAllocator} {e : Fault}
    {k : Nat} (h : allocate_many heap k fa = .error e) (j : Nat) :
    allocate_many heap (k + j) fa = .error e := by
  induction j with
  | zero => exact h
  | succ j ih =>
    show allocate_many heap (k + j + 1) fa = .error e
    simp only [allocate_many, ih]

theorem demo_fresh255_eq : FixedAllocator.mk_sized 8 4096 = .ok demo_fresh255 := by decide

/-- Without wrap-around `get_offset` is the rounded-up quotient. -/
theorem get_offset_eq {x a : Nat} (ha : 0 < a) (h : x + a ≤ SIZE_MOD) :
    get_offset x a = (x + a - 1) / a := by
  unfold get_offset
  have h1 : x + a + (SIZE_MOD - 1) = (x + a - 1) + SIZE_MOD := by
    have : 0 < SIZE_MOD := by norm_num
    omega
  rw [h1, Nat.add_mod_right, Nat.mod_eq_of_lt (by omega)]

/-- Without wrap-around the index is the rounded-up quotient less one. -/
theorem pool_index_eq {b a : Nat} (ha : 0 < a) (hb : 0 < b) (h : b + a ≤ SIZE_MOD) :
    pool_index b a = (b + a - 1) / a - 1 ∧ 0 < (b + a - 1) / a := by
  have hpos : 0 < (b + a - 1) / a := Nat.div_pos (by omega) ha
  have hle : (b + a - 1) / a ≤ b + a - 1 := Nat.div_le_self _ _
  refine ⟨?_, hpos⟩
  unfold pool_index
  rw [get_offset_eq ha h]
  have h1 : (b + a - 1) / a + (SIZE_MOD - 1) = ((b + a - 1) / a - 1) + SIZE_MOD := by
    have : 0 < SIZE_MOD := by norm_num
    omega
  rw [h1, Nat.add_mod_right, Nat.mod_eq_of_lt (by omega)]

/-- Size routing without wrap-around; shared by the claims on the index. -/
theorem size_routing_no_wrap {alignment max_object_size b : Nat}
    (ha : 0 < alignment) (hb : 0 < b) (hle : b ≤ max_object_size)
    (hfit : max_object_size + alignment ≤ SIZE_MOD) :
    pool_index b alignment < get_offset max_object_size alignment ∧
    (pool_index b alignment + 1) * alignment ≥ b ∧
    (pool_index b alignment + 1) * alignment < b + alignment := by
  obtain ⟨hidx, hpos⟩ := pool_index_eq ha hb (by omega : b + alignment ≤ SIZE_MOD)
  rw [hidx, get_offset_eq ha hfit]
  have hmono : (b + alignment - 1) / alignment ≤ (max_object_size + alignment - 1) / alignment :=
    Nat.div_le_div_right (by omega)
  have hsucc : (b + alignment - 1) / alignment - 1 + 1 = (b + alignment - 1) / alignment := by
    omega
  rw [hsucc]
  have hlow : (b + alignment - 1) / alignment * alignment ≤ b + alignment - 1 :=
    Nat.div_mul_le_self _ _
  have hhigh : b + alignment - 1 < ((b + alignment - 1) / alignment + 1) * alignment := by
    have := Nat.lt_div_mul_add (a := b + alignment - 1) ha
    rw [Nat.add_mul, Nat.one_mul]
    exact this
  refine ⟨by omega, ?_, by omega⟩
  rw [Nat.add_mul, Nat.one_mul] at hhigh
  omega

/-- The constructor's loop stops at its first pass when run on the empty vector. -/
theorem init_pool_empty (chunk_size object_alignment count : Nat) (h : 0 < count) :
    init_pool [] chunk_size object_alignment count = .error .undefined := by
  obtain ⟨k, rfl⟩ : ∃ k, count = k + 1 := ⟨count - 1, by omega⟩
  unfold init_pool
  rw [List.range_succ_eq_map, List.foldlM_cons]
  rfl

theorem demo_one_reachable : Reachable demo_one [4096] :=
  Reachable.alloc (Reachable.start (by decide : FixedAllocator.mk_sized 8 16 = .ok demo_fresh))
    (by decide : demo_fresh.allocate (some demo_slab) = .ok (4096, demo_one))

theorem demo_two_reachable : Reachable demo_two [4104, 4096] :=
  Reachable.alloc demo_one_reachable
    (by decide : demo_one.allocate none = .ok (4104, demo_two))

/-- The writes of `Chunk::reset` touch the first byte of blocks `0 .. m - 1`
only. -/
theorem reset_links_keep (bs : Nat) (mem : List Nat) :
    ∀ (m : Nat) (mem1 : List Nat),
      (List.range m).foldlM (fun m k => poke m (k * bs) (k + 1)) mem = .ok mem1 →
      ∀ off, (∀ k, k < m → off ≠ k * bs) → mem1[off]? = mem[off]? := by
  intro m
  induction m with
  | zero =>
    intro mem1 h off _
    simp only [List.range_zero, List.foldlM_nil, pure, Except.pure, Except.ok.injEq] at h
    rw [h]
  | succ m ih =>
    intro mem1 h off hoff
    rw [List.range_succ, List.foldlM_append] at h
    cases hm : (List.range m).foldlM (fun m k => poke m (k * bs) (k + 1)) mem with
    | error e => simp [hm, bind, Except.bind] at h
    | ok mem0 =>
      simp only [hm, bind, Except.bind, List.foldlM_cons, List.foldlM_nil, pure,
        Except.pure] at h
      have hprev := ih mem0 hm off (fun k hk => hoff k (by omega))
      by_cases hlt : m * bs < mem0.length
      · simp only [poke, hlt, if_true, Except.ok.injEq] at h
        rw [← h, List.getElem?_set_ne (Ne.symm (hoff m (by omega))), hprev]
      · simp [poke, hlt] at h

/-- A list of distinct numbers below `n` has at most `n` entries. -/
theorem nodup_bounded_length {l : List Nat} {n : Nat} (hd : l.Nodup) (hlt : ∀ i ∈ l, i < n) :
    l.length ≤ n := by
  have hsub : l ⊆ List.range n := fun i hi => List.mem_range.mpr (hlt i hi)
  have := (List.subperm_of_subset hd hsub).length_le
  simpa using this

/-- A block that is not on a well-formed free list leaves room on it. -/
theorem free_list_room {bs n : Nat} {c : Chunk} (hc : FreeListOk bs n c) {i : Nat}
    (hi : i < n)
    (hni : i ∉ free_list c.slab bs c.m_first_available_block c.m_available_blocks) :
    c.m_available_blocks + 1 ≤ n := by
  have hd : (i :: free_list c.slab bs c.m_first_available_block c.m_available_blocks).Nodup :=
    List.nodup_cons.mpr ⟨hni, hc.distinct⟩
  have hlt : ∀ j ∈ i :: free_list c.slab bs c.m_first_available_block c.m_available_blocks,
      j < n := by
    intro j hj
    rcases List.mem_cons.mp hj with h | h
    · omega
    · exact hc.in_range j h
  have := nodup_bounded_length hd hlt
  simp only [List.length_cons, free_list_length] at this
  exact this

/-- `Chunk::reset` on a slab of `n` blocks: the call returns, blocks
`0 .. n - 2` link to their successors, every other byte keeps its value, and
the free list is `0, 1, ..., n - 1`. -/
theorem chunk_reset_spec {bs n : Nat} (c : Chunk) (hbs : 0 < bs) (hn : 0 < n)
    (hlen : c.slab.length = bs * n) :
    ∃ mem1, c.reset bs n = .ok { c with m_first_available_block := 0,
                                        m_available_blocks := n, slab := mem1 } ∧
      mem1.length = bs * n ∧
      (∀ k, k + 1 < n → mem1[k * bs]? = some (k + 1)) ∧
      (∀ off, (∀ k, k + 1 < n → off ≠ k * bs) → mem1[off]? = c.slab[off]?) ∧
      free_list mem1 bs 0 n = List.range' 0 n := by
  obtain ⟨mem1, hrun, hl, hlink⟩ := reset_links_spec bs hbs c.slab (n - 1)
    (by
      rw [hlen]
      have : (n - 1) * bs ≤ n * bs := Nat.mul_le_mul_right _ (by omega)
      have h3 : n * bs = bs * n := Nat.mul_comm _ _
      omega)
  have hkeep := reset_links_keep bs c.slab (n - 1) mem1 hrun
  refine ⟨mem1, ?_, by rw [hl, hlen], fun k hk => hlink k (by omega),
    fun off hoff => hkeep off (fun k hk => hoff k (by omega)), ?_⟩
  · simp only [Chunk.reset, hbs, hn, and_self, not_true_eq_false, if_false, reset_links, hrun]
  · exact free_list_linked mem1 bs n (fun k hk => hlink k (by omega)) n 0 (by omega)

/-- The free list `0, 1, ..., n - 1` is well formed. -/
theorem free_list_ok_of_range {bs n : Nat} {c : Chunk}
    (h : free_list c.slab bs c.m_first_available_block c.m_available_blocks =
      List.range' 0 n) : FreeListOk bs n c := by
  refine ⟨free_list_length _ _ _ _, ?_, ?_⟩
  · rw [h]; exact List.nodup_range' 0 n
  · intro i hi
    rw [h] at hi
    simp at hi
    omega

/-- `Chunk::allocate` on a well-formed chunk with a free block pops the head
of the free list. -/
theorem chunk_pop {bs n : Nat} {c : Chunk} (hbs : 0 < bs) (hfit : bs * n < SIZE_MOD)
    (hlen : c.slab.length = bs * n) (hc : FreeListOk bs n c)
    (hav : 0 < c.m_available_blocks) :
    c.m_first_available_block < n ∧
    ∃ b, c.slab[c.m_first_available_block * bs]? = some b ∧
      c.allocate bs = .ok (c.m_data_ptr + c.m_first_available_block * bs,
        { c with m_first_available_block := b,
                 m_available_blocks := c.m_available_blocks - 1 }) ∧
      free_list c.slab bs c.m_first_available_block c.m_available_blocks =
        c.m_first_available_block :: free_list c.slab bs b (c.m_available_blocks - 1) ∧
      FreeListOk bs n { c with m_first_available_block := b,
                               m_available_blocks := c.m_available_blocks - 1 } := by
  obtain ⟨k, hk⟩ : ∃ k, c.m_available_blocks = k + 1 := ⟨c.m_available_blocks - 1, by omega⟩
  have hfl : free_list c.slab bs c.m_first_available_block c.m_available_blocks =
      c.m_first_available_block ::
        free_list c.slab bs ((c.slab[c.m_first_available_block * bs]?).getD 0) k := by
    rw [hk]; rfl
  have hff : c.m_first_available_block < n := hc.in_range _ (by rw [hfl]; simp)
  have hoff : c.m_first_available_block * bs < c.slab.length := by
    rw [hlen, Nat.mul_comm bs n]
    exact Nat.mul_lt_mul_of_pos_right hff hbs
  have hmod : (c.m_first_available_block * bs) % SIZE_MOD = c.m_first_available_block * bs := by
    apply Nat.mod_eq_of_lt
    rw [hlen] at hoff
    omega
  have hget : (c.slab[c.m_first_available_block * bs]?).getD 0 =
      c.slab[c.m_first_available_block * bs] := by simp [hoff]
  have hk1 : c.m_available_blocks - 1 = k := by omega
  have hnd := hc.distinct
  rw [hfl, hget] at hnd
  refine ⟨hff, c.slab[c.m_first_available_block * bs], by simp [hoff], ?_, ?_, ?_⟩
  · have hnot : ¬ c.m_available_blocks < 1 := by omega
    simp only [Chunk.allocate, hbs, gt_iff_lt, not_true_eq_false, if_false, hnot, hmod,
      peek_ok hoff]
  · rw [hfl, hget, hk1]
  · refine ⟨free_list_length _ _ _ _, ?_, ?_⟩
    · simp only [hk1]
      exact (List.nodup_cons.mp hnd).2
    · intro i hi
      simp only [hk1] at hi
      exact hc.in_range i (by rw [hfl, hget]; exact List.mem_cons_of_mem _ hi)

/-- `Chunk::deallocate` of a block-aligned pointer whose block is not on the
free list pushes that block: the link byte takes the old head, the block
becomes the head and the count grows by one, without wrapping. -/
theorem chunk_push {bs n : Nat} {c : Chunk} (hbs : 0 < bs) (hn : n ≤ 255)
    (hlen : c.slab.length = bs * n) (hc : FreeListOk bs n c) {i : Nat} (hi : i < n)
    (hni : i ∉ free_list c.slab bs c.m_first_available_block c.m_available_blocks) :
    c.deallocate (c.m_data_ptr + i * bs) bs = .ok
        { c with slab := c.slab.set (i * bs) c.m_first_available_block,
                 m_first_available_block := i,
                 m_available_blocks := c.m_available_blocks + 1 } ∧
    c.m_available_blocks + 1 ≤ n ∧
    free_list (c.slab.set (i * bs) c.m_first_available_block) bs i
        (c.m_available_blocks + 1) =
      i :: free_list c.slab bs c.m_first_available_block c.m_available_blocks ∧
    FreeListOk bs n
      { c with slab := c.slab.set (i * bs) c.m_first_available_block,
               m_first_available_block := i,
               m_available_blocks := c.m_available_blocks + 1 } := by
  have hav : c.m_available_blocks + 1 ≤ n := free_list_room hc hi hni
  have hoff : i * bs < c.slab.length := by
    rw [hlen, Nat.mul_comm bs n]
    exact Nat.mul_lt_mul_of_pos_right hi hbs
  have hdiff : c.m_data_ptr + i * bs - c.m_data_ptr = i * bs := by omega
  have hge : c.m_data_ptr + i * bs ≥ c.m_data_ptr := by omega
  have hmod0 : i * bs % bs = 0 := Nat.mul_mod_left i bs
  have hdiv : i * bs / bs = i := Nat.mul_div_cancel i hbs
  have hi256 : i % SMALL_MOD = i := Nat.mod_eq_of_lt (by show i < 256; omega)
  have hav256 : (c.m_available_blocks + 1) % SMALL_MOD = c.m_available_blocks + 1 :=
    Nat.mod_eq_of_lt (by show c.m_available_blocks + 1 < 256; omega)
  have hsame : free_list (c.slab.set (i * bs) c.m_first_available_block) bs
        c.m_first_available_block c.m_available_blocks =
      free_list c.slab bs c.m_first_available_block c.m_available_blocks := by
    apply free_list_congr
    intro j hj
    have hne : i * bs ≠ j * bs := by
      intro h
      have : i = j := Nat.eq_of_mul_eq_mul_right hbs h
      exact hni (this ▸ hj)
    exact List.getElem?_set_ne hne
  have hfl : free_list (c.slab.set (i * bs) c.m_first_available_block) bs i
        (c.m_available_blocks + 1) =
      i :: free_list c.slab bs c.m_first_available_block c.m_available_blocks := by
    simp only [free_list]
    rw [List.getElem?_set_self hoff, Option.getD_some, hsame]
  refine ⟨?_, hav, hfl, ?_⟩
  · simp only [Chunk.deallocate, hbs, hge, gt_iff_lt, ge_iff_le, and_self, not_true_eq_false,
      if_false, hdiff, hmod0, ne_eq, poke_ok _ hoff, hdiv, hi256, hav256]
  · refine ⟨free_list_length _ _ _ _, ?_, ?_⟩
    · show (free_list (c.slab.set (i * bs) c.m_first_available_block) bs i
        (c.m_available_blocks + 1)).Nodup
      rw [hfl]
      exact List.nodup_cons.mpr ⟨hni, hc.distinct⟩
    · intro j hj
      have hj2 : j ∈ free_list (c.slab.set (i * bs) c.m_first_available_block) bs i
          (c.m_available_blocks + 1) := hj
      rw [hfl] at hj2
      rcases List.mem_cons.mp hj2 with h | h
      · omega
      · exact hc.in_range j h

/-- `Chunk::initialize` is `Chunk::reset` on the slab the heap hands out, once
its assertions hold. -/
theorem chunk_initialize_unfold {c0 c : Chunk} {bs n : Nat} {heap : Option Slab}
    (h : Chunk.initialize c0 bs n heap = .ok c) :
    0 < bs ∧ 0 < n ∧ bs * n < SIZE_MOD ∧ c0.m_data_ptr = 0 ∧
    ∃ s, heap = some s ∧
      Chunk.reset { c0 with m_data_ptr := s.addr,
                            slab := (List.range (bs * n)).map (fun i => s.junk i % SMALL_MOD) }
        bs n = .ok c := by
  unfold Chunk.initialize at h
  by_cases hpos : bs > 0 ∧ n > 0
  · obtain ⟨hbs, hn⟩ := hpos
    simp only [hbs, hn, and_self, not_true_eq_false, if_false] at h
    by_cases hov : (bs * n) % SIZE_MOD / bs = n
    · have hsz : bs * n < SIZE_MOD := by
        by_contra hge
        have h1 : (bs * n) % SIZE_MOD < SIZE_MOD := Nat.mod_lt _ (by norm_num)
        have h2 : n * bs ≤ (bs * n) % SIZE_MOD := by
          have := Nat.div_mul_le_self ((bs * n) % SIZE_MOD) bs
          rw [hov] at this
          exact this
        have h3 : n * bs = bs * n := Nat.mul_comm _ _
        omega
      have hmod : (bs * n) % SIZE_MOD = bs * n := Nat.mod_eq_of_lt hsz
      by_cases hnull : c0.m_data_ptr = 0
      · cases heap with
        | none => simp [hov, hnull] at h
        | some s =>
          have hdiv : bs * n / bs = n := Nat.mul_div_cancel_left n hbs
          simp only [hmod, hdiv, ne_eq, not_true_eq_false, if_false, hnull] at h
          exact ⟨hbs, hn, hsz, hnull, s, rfl, h⟩
      · simp [hov, hnull] at h
    · simp [hov] at h
  · simp [hpos] at h

/-- `Chunk::initialize` returns when its assertions hold and the heap
supplies the slab. -/
theorem chunk_initialize_fold {c0 : Chunk} {bs n : Nat} (s : Slab) (hbs : 0 < bs) (hn : 0 < n)
    (hfit : bs * n < SIZE_MOD) (hnull : c0.m_data_ptr = 0) :
    Chunk.initialize c0 bs n (some s) =
      Chunk.reset { c0 with m_data_ptr := s.addr,
                            slab := (List.range (bs * n)).map (fun i => s.junk i % SMALL_MOD) }
        bs n := by
  have hmod : (bs * n) % SIZE_MOD = bs * n := Nat.mod_eq_of_lt hfit
  have hdiv : bs * n / bs = n := Nat.mul_div_cancel_left n hbs
  simp only [ Chunk.initialize, hbs, hn, and_self, not_true_eq_false, if_false, hmod, hdiv,
    ne_eq, hnull]

/-- Giving back distinct allocated blocks and allocating as many again
returns them last-in first-out and restores the head, the count and the
links of the free list. -/
theorem chunk_lifo {bs n : Nat} (hbs : 0 < bs) (hn : n ≤ 255) (hfit : bs * n < SIZE_MOD) :
    ∀ (ps : List Nat) (c : Chunk), c.slab.length = bs * n → FreeListOk bs n c → ps.Nodup →
      (∀ p ∈ ps, ∃ i, i < n ∧ p = c.m_data_ptr + i * bs ∧
        i ∉ free_list c.slab bs c.m_first_available_block c.m_available_blocks) →
      ∃ c1 c2, Chunk.deallocate_all bs c ps = .ok c1 ∧
        Chunk.allocate_times bs ps.length c1 = .ok (ps.reverse, c2) ∧
        c2.m_data_ptr = c.m_data_ptr ∧
        c2.m_first_available_block = c.m_first_available_block ∧
        c2.m_available_blocks = c.m_available_blocks ∧
        c2.slab.length = c.slab.length ∧
        ∀ j ∈ free_list c.slab bs c.m_first_available_block c.m_available_blocks,
          c2.slab[j * bs]? = c.slab[j * bs]? := by
  intro ps
  induction ps with
  | nil =>
    intro c _ _ _ _
    exact ⟨c, c, rfl, rfl, rfl, rfl, rfl, rfl, fun _ _ => rfl⟩
  | cons p ps ih =>
    intro c hlen hc hnd hblocks
    obtain ⟨i, hi, hpi, hni⟩ := hblocks p (List.mem_cons_self _ _)
    obtain ⟨hde, hav, hfl, hok⟩ := chunk_push hbs hn hlen hc hi hni
    have hoff : i * bs < c.slab.length := by
      rw [hlen, Nat.mul_comm bs n]
      exact Nat.mul_lt_mul_of_pos_right hi hbs
    have hrest : ∀ q ∈ ps, ∃ j, j < n ∧ q = c.m_data_ptr + j * bs ∧
        j ∉ free_list (c.slab.set (i * bs) c.m_first_available_block) bs i
          (c.m_available_blocks + 1) := by
      intro q hq
      obtain ⟨j, hj, hqj, hnj⟩ := hblocks q (List.mem_cons_of_mem _ hq)
      refine ⟨j, hj, hqj, ?_⟩
      rw [hfl]
      intro hmem
      rcases List.mem_cons.mp hmem with h | h
      · have hqp : q = p := by rw [hqj, hpi, h]
        exact (List.nodup_cons.mp hnd).1 (hqp ▸ hq)
      · exact hnj h
    obtain ⟨c1, c2, hall, htimes, hd2, hff2, hav2, hlen2, hsame2⟩ :=
      ih { c with slab := c.slab.set (i * bs) c.m_first_available_block,
                  m_first_available_block := i,
                  m_available_blocks := c.m_available_blocks + 1 }
        (by simp [hlen]) hok (List.nodup_cons.mp hnd).2 hrest
    simp only at hd2 hff2 hav2 hlen2 hsame2
    have hlink : c2.slab[i * bs]? = some c.m_first_available_block := by
      rw [hsame2 i (by rw [hfl]; simp), List.getElem?_set_self hoff]
    have hmod : (i * bs) % SIZE_MOD = i * bs := by
      apply Nat.mod_eq_of_lt
      rw [hlen] at hoff
      omega
    have hnot : ¬ c2.m_available_blocks < 1 := by omega
    have hlast : c2.allocate bs = .ok (p,
        { c2 with m_first_available_block := c.m_first_available_block,
                  m_available_blocks := c.m_available_blocks }) := by
      have hpeek : peek c2.slab (i * bs) = .ok c.m_first_available_block := by
        simp [peek, hlink]
      have hnot2 : ¬ c.m_available_blocks + 1 < 1 := by omega
      simp only [Chunk.allocate, hbs, gt_iff_lt, not_true_eq_false, if_false, hff2,
        hmod, hpeek, hd2, hav2, hpi, Nat.add_sub_cancel, hnot2]
    refine ⟨c1, { c2 with m_first_available_block := c.m_first_available_block,
                          m_available_blocks := c.m_available_blocks }, ?_, ?_, hd2, rfl, rfl,
      by simpa using hlen2, ?_⟩
    · rw [hpi]
      simp only [Chunk.deallocate_all, hde]
      exact hall
    · show Chunk.allocate_times bs (ps.length + 1) c1 = _
      simp only [Chunk.allocate_times, htimes, hlast, List.reverse_cons]
    · intro j hj
      show c2.slab[j * bs]? = c.slab[j * bs]?
      rw [hsame2 j (by rw [hfl]; exact List.mem_cons_of_mem _ hj)]
      have hne : i * bs ≠ j * bs := by
        intro h
        have : i = j := Nat.eq_of_mul_eq_mul_right hbs h
        exact hni (this ▸ hj)
      exact List.getElem?_set_ne hne

theorem demo_two_chunk_ok : FreeListOk 8 4 demo_two_chunk :=
  ⟨by decide, by decide, by decide⟩

/-- A pass of the vicinity search returns only a chunk of the sequence whose
slab holds the pointer. -/
theorem vicinity_step_found (fa : FixedAllocator) (ptr len : Nat) (l u : Option Nat) (i : Nat)
    (h : fa.vicinity_step ptr len l u = .found i) :
    ∃ c, fa.m_chunks[i]? = some c ∧ c.has_block ptr len = true := by
  have hupper : ∀ (l1 : Option Nat) (x : Nat),
      (match fa.m_chunks[x]? with
        | none => Probe.fault Fault.undefined
        | some c => if c.has_block ptr len = true then Probe.found x
                    else Probe.next l1 (some x)) = Probe.found i →
      ∃ c, fa.m_chunks[i]? = some c ∧ c.has_block ptr len = true := by
    intro l1 x hx
    cases hcx : fa.m_chunks[x]? with
    | none => rw [hcx] at hx; cases hx
    | some cx =>
      rw [hcx] at hx
      by_cases hb : cx.has_block ptr len = true
      · simp only [hb, if_true, Probe.found.injEq] at hx
        subst hx
        exact ⟨cx, hcx, hb⟩
      · simp [hb] at hx
  cases l with
  | none =>
    cases u with
    | none => simp [FixedAllocator.vicinity_step] at h
    | some x =>
      simp only [FixedAllocator.vicinity_step] at h
      exact hupper none x h
  | some l =>
    simp only [FixedAllocator.vicinity_step] at h
    cases hl : fa.m_chunks[l]? with
    | none => rw [hl] at h; cases u <;> cases h
    | some c =>
      rw [hl] at h
      by_cases hb : c.has_block ptr len = true
      · simp only [hb, if_true] at h
        cases u <;>
        · simp only [Probe.found.injEq] at h
          subst h
          exact ⟨c, hl, hb⟩
      · by_cases h0 : l = 0
        · simp only [hb, h0, if_true, Bool.false_eq_true, if_false] at h
          cases u with
          | none => cases h
          | some x => exact hupper none x h
        · simp only [hb, h0, Bool.false_eq_true, if_false] at h
          cases u with
          | none => cases h
          | some x => exact hupper (some (l - 1)) x h

/-- The loop of the vicinity search returns only a chunk whose slab holds the
pointer. -/
theorem vicinity_loop_found (fa : FixedAllocator) (ptr len : Nat) :
    ∀ (fuel : Nat) (l u : Option Nat) (i : Nat),
      fa.vicinity_loop ptr len fuel l u = some (.ok i) →
      ∃ c, fa.m_chunks[i]? = some c ∧ c.has_block ptr len = true := by
  intro fuel
  induction fuel with
  | zero => intro l u i h; cases h
  | succ k ih =>
    intro l u i h
    rw [vicinity_loop_succ] at h
    cases hs : fa.vicinity_step ptr len l u with
    | found j =>
      rw [hs] at h
      simp only [Option.some.injEq, Except.ok.injEq] at h
      subst h
      exact vicinity_step_found fa ptr len l u j hs
    | fault f => rw [hs] at h; cases h
    | next l1 u1 =>
      rw [hs] at h
      exact ih l1 u1 i h

/-- The loop of the vicinity search faults only with undefined behaviour. -/
theorem vicinity_loop_fault (fa : FixedAllocator) (ptr len : Nat) :
    ∀ (fuel : Nat) (l u : Option Nat) (e : Fault),
      fa.vicinity_loop ptr len fuel l u = some (.error e) → e = .undefined := by
  intro fuel
  induction fuel with
  | zero => intro l u e h; cases h
  | succ k ih =>
    intro l u e h
    rw [vicinity_loop_succ] at h
    cases hs : fa.vicinity_step ptr len l u with
    | found j => rw [hs] at h; cases h
    | next l1 u1 =>
      rw [hs] at h
      exact ih l1 u1 e h
    | fault f =>
      rw [hs] at h
      simp only [Option.some.injEq, Except.error.injEq] at h
      subst h
      have hup : ∀ (l1 : Option Nat) (x : Nat),
          (match fa.m_chunks[x]? with
            | none => Probe.fault Fault.undefined
            | some c => if c.has_block ptr len = true then Probe.found x
                        else Probe.next l1 (some x)) = Probe.fault f → f = .undefined := by
        intro l1 x hx
        cases hcx : fa.m_chunks[x]? with
        | none => rw [hcx] at hx; cases hx; rfl
        | some cx =>
          rw [hcx] at hx
          by_cases hb : cx.has_block ptr len = true
          · simp [hb] at hx
          · simp [hb] at hx
      cases l with
      | none =>
        cases u with
        | none => simp [FixedAllocator.vicinity_step] at hs
        | some x =>
          simp only [FixedAllocator.vicinity_step] at hs
          exact hup none x hs
      | some l =>
        simp only [FixedAllocator.vicinity_step] at hs
        cases hl : fa.m_chunks[l]? with
        | none => rw [hl] at hs; cases u <;> (cases hs; rfl)
        | some c =>
          rw [hl] at hs
          by_cases hb : c.has_block ptr len = true
          · simp only [hb, if_true] at hs
            cases u <;> cases hs
          · by_cases h0 : l = 0
            · simp only [hb, h0, if_true, Bool.false_eq_true, if_false] at hs
              cases u with
              | none => cases hs
              | some x => exact hup none x hs
            · simp only [hb, h0, Bool.false_eq_true, if_false] at hs
              cases u with
              | none => cases hs
              | some x => exact hup (some (l - 1)) x hs

/-- The scan of `allocate` stops at the first chunk with a free block. -/
theorem scan_available_first :
    ∀ (l : List Chunk) (j : Nat), (∃ c ∈ l, 0 < c.m_available_blocks) →
      ∃ i c, scan_available l j = some (j + i) ∧ l[i]? = some c ∧
        0 < c.m_available_blocks ∧
        ∀ k ck, k < i → l[k]? = some ck → ck.m_available_blocks = 0 := by
  intro l
  induction l with
  | nil => intro j h; obtain ⟨c, hc, _⟩ := h; simp at hc
  | cons a l ih =>
    intro j h
    by_cases ha : 0 < a.m_available_blocks
    · refine ⟨0, a, ?_, by simp, ha, fun k ck hk _ => absurd hk (Nat.not_lt_zero k)⟩
      simp [scan_available, ha]
    · have hrest : ∃ c ∈ l, 0 < c.m_available_blocks := by
        obtain ⟨c, hc, hpos⟩ := h
        rcases List.mem_cons.mp hc with hca | hcl
        · subst hca; exact absurd hpos ha
        · exact ⟨c, hcl, hpos⟩
      obtain ⟨i, c, hscan, hci, hpos, hmin⟩ := ih (j + 1) hrest
      refine ⟨i + 1, c, ?_, by simpa using hci, hpos, ?_⟩
      · simp only [scan_available, gt_iff_lt, ha, if_false, hscan]
        congr 1
        omega
      · intro k ck hk hck
        cases k with
        | zero =>
          simp only [List.getElem?_cons_zero, Option.some.injEq] at hck
          subst hck
          omega
        | succ k =>
          simp only [List.getElem?_cons_succ] at hck
          exact hmin k ck (by omega) hck

theorem demo_full_then_free_ok : demo_full_then_free.WellFormed := by
  refine ⟨by decide, by decide, ?_, ?_⟩
  · intro c hc
    have hc2 : c = demo_full_chunk 4096 ∨
        c = { demo_two_chunk with m_data_ptr := 8192 } := by
      simpa [demo_full_then_free] using hc
    rcases hc2 with h | h
    · subst h
      exact ⟨by decide, by decide, ⟨by decide, by decide, by decide⟩⟩
    · subst h
      exact ⟨by decide, by decide, ⟨by decide, by decide, by decide⟩⟩
  · intro i hi
    have : i = 0 := by
      have h2 : (some 0 : Option Nat) = some i := hi
      simpa using h2.symm
    subst this
    decide

theorem demo_four_reachable : Reachable demo_four [4120, 4112, 4104, 4096] :=
  Reachable.alloc
    (Reachable.alloc demo_two_reachable
      (by decide : demo_two.allocate none = .ok (4112, demo_three)))
    (by decide : demo_three.allocate none = .ok (4120, demo_four))

/-- A hand-built state with three full chunks of 4 blocks of 8 bytes, which no
run of the code produces (`allocate_many_capacity`).  Giving back the 4 blocks
of chunk 0 would leave that chunk empty at index 0 with the two full chunks
behind it: the guard `m_available_blocks > m_number_of_blocks` of the
reclamation branch is false, so nothing is swapped or released. -/
theorem three_full_chunks_keep_their_order :
    (deallocate_many demo_three_full [4096, 4104, 4112, 4120]).map
        (fun fa => (fa.m_chunks.map (fun c => (c.m_data_ptr, c.m_available_blocks)),
                    fa.m_last_allocation, fa.m_last_deallocation)) =
      .ok ([(4096, 4), (8192, 0), (12288, 0)], some 2, some 0) := by
  decide

/-- Hand-built states with three full chunks of 4 blocks of 8 bytes at `4096`,
`8192`, `12288`, which no run of the code produces
(`allocate_many_capacity`).  There, with `m_last_deallocation` on the front
or on the middle chunk, a pointer into the back chunk would never be found
(`upper` is tested but never moved, or is `nullptr` from the start), and with
`m_last_deallocation` on the back chunk and a pointer into the front chunk
`upper` would be one past the back. -/
theorem three_chunks_search_misses :
    (demo_three_full.has_block 12296 = some 2 ∧
      demo_three_full.find_in_vicinity 12296 = .error .diverges ∧
      ∀ fuel, demo_three_full.vicinity_loop 12296 32 fuel (some 0) (some 1) = none) ∧
    (demo_three_middle.find_in_vicinity 12296 = .error .diverges ∧
      ∀ fuel, demo_three_middle.vicinity_loop 12296 32 fuel (some 1) none = none) ∧
    (demo_three_back.has_block 4096 = some 0 ∧
      demo_three_back.find_in_vicinity 4096 = .error .undefined) := by
  refine ⟨⟨by decide, by decide, ?_⟩, ⟨by decide, ?_⟩, by decide, by decide⟩
  · exact find_in_vicinity_budget demo_three_full 12296 32 0 (some 1) (by decide)
  · exact find_in_vicinity_budget demo_three_middle 12296 32 1 none (by decide)

/-! ## The claims -/

/-- C1 (the code departs from it): `FixedAllocator(8, 4096)` has 255 blocks
per chunk.  Once the heap has supplied the first slab, the first 255
`allocate()` calls return and fill the one chunk; the 256th call appends no
chunk and stops at `assert(m_last_allocation->m_available_blocks > 0)`, so the
300 calls of the scenario do not complete. -/
theorem C1_allocate_appends_no_second_chunk (heap : Nat → Option Slab) (s : Slab)
    (h0 : heap 0 = some s) :
    (∃ ps fa, allocate_many heap 255 demo_fresh255 = .ok (ps, fa) ∧
      fa.m_chunks.length = 1 ∧ (∀ c ∈ fa.m_chunks, c.m_available_blocks = 0) ∧
      ∀ h : Option Slab, fa.allocate h = .error .assertion) ∧
    allocate_many heap 256 demo_fresh255 = .error .assertion ∧
    allocate_many heap 300 demo_fresh255 = .error .assertion := by
  have hr0 : Reachable demo_fresh255 [] := Reachable.start demo_fresh255_eq
  have hrun : ∀ k, k ≤ 255 → ∃ ps fa, allocate_many heap k demo_fresh255 = .ok (ps, fa) := by
    intro k
    induction k with
    | zero => intro _; exact ⟨[], demo_fresh255, rfl⟩
    | succ k ih =>
      intro hk
      obtain ⟨ps, fa, hps⟩ := ih (by omega)
      obtain ⟨hr, hlen⟩ := allocate_many_reach hr0 k ps fa hps
      simp only [List.append_nil] at hr
      have hinv := reachable_inv hr
      have hbn : fa.m_block_size = 8 ∧ fa.m_number_of_blocks = 255 := by
        clear hinv hlen hk ih
        have : ∀ (j : Nat) (qs : List Nat) (fb : FixedAllocator),
            allocate_many heap j demo_fresh255 = .ok (qs, fb) →
            fb.m_block_size = 8 ∧ fb.m_number_of_blocks = 255 := by
          intro j
          induction j with
          | zero =>
            intro qs fb h
            simp only [allocate_many, Except.ok.injEq, Prod.mk.injEq] at h
            rw [← h.2]
            exact ⟨rfl, rfl⟩
          | succ j ihj =>
            intro qs fb h
            simp only [allocate_many] at h
            cases hj : allocate_many heap j demo_fresh255 with
            | error e => rw [hj] at h; cases h
            | ok r =>
              obtain ⟨rs, fc⟩ := r
              rw [hj] at h
              simp only at h
              cases ha : fc.allocate (heap j) with
              | error e => rw [ha] at h; cases h
              | ok r2 =>
                obtain ⟨p, fd⟩ := r2
                rw [ha] at h
                simp only [Except.ok.injEq, Prod.mk.injEq] at h
                obtain ⟨hrc, _⟩ := allocate_many_reach hr0 j rs fc hj
                simp only [List.append_nil] at hrc
                obtain ⟨_, h1, h2⟩ := allocate_inv (reachable_inv hrc) ha
                obtain ⟨e1, e2⟩ := ihj rs fc hj
                rw [← h.2, h1, h2]
                exact ⟨e1, e2⟩
        exact this k ps fa hps
      have hsz : fa.m_block_size * fa.m_number_of_blocks < SIZE_MOD := by
        rw [hbn.1, hbn.2]; norm_num
      have hheap : fa.m_chunks = [] → ∃ s, heap k = some s := by
        intro hch
        rcases hinv.shape with ⟨_, _, hout⟩ | ⟨c, hc, _⟩
        · have : k = 0 := by rw [← hlen, hout]; rfl
          subst this
          exact ⟨s, h0⟩
        · rw [hch] at hc; simp at hc
      obtain ⟨p, fa1, ha⟩ := allocate_progress hinv hsz hheap (by rw [hlen, hbn.2]; omega)
      exact ⟨p :: ps, fa1, by simp only [allocate_many, hps, ha]⟩
  obtain ⟨ps, fa, hps⟩ := hrun 255 (by omega)
  obtain ⟨hr, hlen⟩ := allocate_many_reach hr0 255 ps fa hps
  simp only [List.append_nil] at hr
  have hinv := reachable_inv hr
  have hfull : fa.m_chunks.length = 1 ∧ (∀ c ∈ fa.m_chunks, c.m_available_blocks = 0) ∧
      ∀ h : Option Slab, fa.allocate h = .error .assertion := by
    rcases hinv.shape with ⟨_, _, hout⟩ | ⟨c, hch, hla, _, hc⟩
    · rw [hout] at hlen; simp at hlen
    · have hn : fa.m_number_of_blocks ≤ 255 := hinv.n_le
      have hc0 : c.m_available_blocks = 0 := by have := hc.count; omega
      have hall : ∀ d ∈ fa.m_chunks, d.m_available_blocks = 0 := by
        intro d hd
        rw [hch] at hd
        simp at hd
        rw [hd]; exact hc0
      exact ⟨by rw [hch]; rfl, hall,
        fun h => allocate_of_full hla (by rw [hch]; rfl) hall h⟩
  have h256 : allocate_many heap 256 demo_fresh255 = .error .assertion := by
    rw [allocate_many_succ heap 255 demo_fresh255, hps]
    simp only [hfull.2.2]
  exact ⟨⟨ps, fa, hps, hfull⟩, h256, allocate_many_error_succ h256 44⟩

/-- The hypotheses of C1's theorem hold when every request to the heap is
answered with a slab. -/
theorem C1_allocate_appends_no_second_chunk_witness :
    (fun _ => some demo_slab : Nat → Option Slab) 0 = some demo_slab ∧
    allocate_many (fun _ => some demo_slab) 256 demo_fresh255 = .error .assertion :=
  ⟨rfl, (C1_allocate_appends_no_second_chunk (fun _ => some demo_slab) demo_slab rfl).2.1⟩

/-- C2 (the code departs from it): in a one-class allocator whose
FixedAllocator has handed out the block at `4096`, the search of the
size-unknown `deallocate` finds the owner at index `0`, and the call then
returns the allocator unchanged, whereas `pool[0].deallocate(4096)` puts the
block back (free count 3 becomes 4). -/
theorem C2_deallocate_unsized_never_delegates :
    demo_single_class.find_owner 4096 1 0 = .ok (some 0) ∧
    demo_single_class.deallocate 4096 = .ok demo_single_class ∧
    (demo_one.deallocate 4096).map (fun fa => fa.m_chunks.map (fun c => c.m_available_blocks)) =
      .ok [4] ∧
    demo_one.m_chunks.map (fun c => c.m_available_blocks) = [3] := by
  decide

/-- C3 (the code departs from it): with `max_object_size = 256` and
`alignment = 4`, `deallocate(ptr, 1024)` on a non-null pointer hands `ptr` to
`::operator delete` and then goes on to the pool branch, where
`assert(index < max_index)` fails (index 255, max_index 64), whatever the
pool holds. -/
theorem C3_deallocate_large_falls_through (pool : List FixedAllocator) (ptr : Nat)
    (hptr : ptr ≠ 0) :
    SmallObjectAllocator.deallocate_sized
        { m_object_alignment := 4, m_max_object_size := 256, m_pool := pool } ptr 1024 =
      ⟨[ptr], .error .assertion⟩ ∧
    pool_index 1024 4 = 255 ∧ get_offset 256 4 = 64 := by
  have h1 : pool_index 1024 4 = 255 := by decide
  have h2 : get_offset 256 4 = 64 := by decide
  refine ⟨?_, h1, h2⟩
  simp [SmallObjectAllocator.deallocate_sized, hptr, h1, h2]

/-- The hypothesis of C3's theorem holds for the pointer `65536` and the
pool of 64 size classes. -/
theorem C3_deallocate_large_falls_through_witness :
    (65536 : Nat) ≠ 0 ∧
    demo_allocator.deallocate_sized 65536 1024 = ⟨[65536], .error .assertion⟩ :=
  ⟨by decide, (C3_deallocate_large_falls_through demo_pool 65536 (by decide)).1⟩

/-- C4 as stated fails: with alignment 2 and `max_object_size = b = 2^64 - 1`
the sum `b + alignment - 1` wraps to `0`, so `get_offset` is `0` for both and
the index `0 - 1` wraps to `2^64 - 1`, which is not below `0`. -/
theorem C4_counterexample :
    0 < 2 ∧ 0 < 2 ^ 64 - 1 ∧ 2 ^ 64 - 1 ≤ 2 ^ 64 - 1 ∧
    get_offset (2 ^ 64 - 1) 2 = 0 ∧ pool_index (2 ^ 64 - 1) 2 = 2 ^ 64 - 1 ∧
    ¬ (pool_index (2 ^ 64 - 1) 2 < get_offset (2 ^ 64 - 1) 2) := by
  decide

/-- C4 (amended): when `max_object_size + alignment` does not exceed `2^64`,
so that the rounding sum cannot wrap, the index computed for `0 < b <=
max_object_size` is below the number of classes and the class size
`(index + 1) * alignment` is at least `b` and below `b + alignment`. -/
theorem C4_size_routing (alignment max_object_size b : Nat)
    (ha : 0 < alignment) (hb : 0 < b) (hle : b ≤ max_object_size)
    (hfit : max_object_size + alignment ≤ SIZE_MOD) :
    pool_index b alignment < get_offset max_object_size alignment ∧
    (pool_index b alignment + 1) * alignment ≥ b ∧
    (pool_index b alignment + 1) * alignment < b + alignment :=
  size_routing_no_wrap ha hb hle hfit

/-- The hypotheses of the amended C4 hold for alignment 4, largest size 256
and a request of 13 bytes: index 3, class size 16. -/
theorem C4_size_routing_witness :
    (0 < 4 ∧ 0 < 13 ∧ 13 ≤ 256 ∧ 256 + 4 ≤ SIZE_MOD) ∧
    (pool_index 13 4 < get_offset 256 4 ∧ (pool_index 13 4 + 1) * 4 ≥ 13 ∧
      (pool_index 13 4 + 1) * 4 < 13 + 4) :=
  ⟨by decide, C4_size_routing 4 256 13 (by decide) (by decide) (by decide) (by decide)⟩

/-- C5 (the code departs from it): the constructor reserves capacity but
never gives `m_pool` any element, so for `(4096, 256, 4)`, and for every
configuration with at least one size class, the first `m_pool[0]` of its loop
is outside the vector and no pool of 64 allocators results. -/
theorem C5_constructor_leaves_pool_empty :
    SmallObjectAllocator.construct 4096 256 4 = .error .undefined ∧
    get_offset 256 4 = 64 ∧
    (∀ chunk_size max_object_size object_alignment : Nat, 0 < object_alignment →
      0 < get_offset max_object_size object_alignment →
      SmallObjectAllocator.construct chunk_size max_object_size object_alignment =
        .error .undefined) := by
  have hgen : ∀ chunk_size max_object_size object_alignment : Nat, 0 < object_alignment →
      0 < get_offset max_object_size object_alignment →
      SmallObjectAllocator.construct chunk_size max_object_size object_alignment =
        .error .undefined := by
    intro cs m a ha hcount
    have hne : ¬ a = 0 := by omega
    simp only [SmallObjectAllocator.construct, hne, if_false, init_pool_empty cs a _ hcount]
  exact ⟨hgen 4096 256 4 (by decide) (by decide), by decide, hgen⟩

/-- C6: along every use of a FixedAllocator that starts freshly constructed,
the sum over the chunks of (blocks_per_chunk - free_count) equals the number
of outstanding pointers. -/
theorem C6_used_blocks_eq_outstanding (fa : FixedAllocator) (out : List Nat)
    (h : Reachable fa out) :
    (fa.m_chunks.map
        (fun c => (fa.m_number_of_blocks : Int) - (c.m_available_blocks : Int))).sum =
      (out.length : Int) := by
  have hinv := reachable_inv h
  rcases hinv.shape with ⟨hch, _, hout⟩ | ⟨c, hch, _, _, hc⟩
  · simp [hch, hout]
  · have := hc.count
    simp [hch]
    omega

/-- C6 applied after two allocations from `FixedAllocator(8, 16)`: the one
chunk has 2 of its 4 blocks in use. -/
theorem C6_used_blocks_eq_outstanding_witness :
    Reachable demo_two [4104, 4096] ∧
    (demo_two.m_chunks.map
        (fun c => (demo_two.m_number_of_blocks : Int) - (c.m_available_blocks : Int))).sum =
      (([4104, 4096] : List Nat).length : Int) :=
  ⟨demo_two_reachable, C6_used_blocks_eq_outstanding demo_two [4104, 4096] demo_two_reachable⟩

/-- C7: in a reachable state with a free block, `allocate()` followed by
`deallocate` of the pointer returned leaves the chunk sequence (order, first
free block, free count and slab bytes of every chunk) as it was; from the
freshly constructed state the pair leaves one chunk with all its blocks free,
and the allocation goes through whenever the heap supplies the slab and the
slab size fits `size_t`. -/
theorem C7_allocate_then_deallocate_restores :
    (∀ (fa : FixedAllocator) (out : List Nat), Reachable fa out →
      (∃ c ∈ fa.m_chunks, 0 < c.m_available_blocks) →
      ∀ heap : Option Slab, ∃ p fa1 fa2,
        fa.allocate heap = .ok (p, fa1) ∧ fa1.deallocate p = .ok fa2 ∧
        fa2.m_chunks = fa.m_chunks) ∧
    (∀ (bs cs : Nat) (fa : FixedAllocator), FixedAllocator.mk_sized bs cs = .ok fa →
      (∀ (heap : Option Slab) (p : Nat) (fa1 : FixedAllocator),
        fa.allocate heap = .ok (p, fa1) →
        ∃ fa2 c, fa1.deallocate p = .ok fa2 ∧ fa2.m_chunks = [c] ∧
          c.m_available_blocks = fa.m_number_of_blocks) ∧
      (∀ s : Slab, bs * fa.m_number_of_blocks < SIZE_MOD →
        ∃ p fa1, fa.allocate (some s) = .ok (p, fa1))) := by
  constructor
  · intro fa out hr hfree heap
    have hinv := reachable_inv hr
    rcases hinv.shape with ⟨hch, _, _⟩ | ⟨c, hch, hla, hld, hc⟩
    · obtain ⟨c, hc, _⟩ := hfree
      rw [hch] at hc
      simp at hc
    · have hav : 0 < c.m_available_blocks := by
        obtain ⟨d, hd, hdav⟩ := hfree
        rw [hch] at hd
        simp at hd
        subst hd
        exact hdav
      obtain ⟨b, hb, halloc, _⟩ := allocate_of_free hch hla hinv.bs_pos hc hav heap
      have hinv1 := (allocate_inv hinv halloc).1
      obtain ⟨c1, i, hch1, hi, hpi, hde, _⟩ :=
        deallocate_inv hinv1 (List.mem_cons_self _ _)
      refine ⟨_, _, _, halloc, hde, ?_⟩
      simp only at hch1
      simp only [List.cons.injEq, and_true] at hch1
      subst hch1
      simp only at hpi hde ⊢
      have hi2 : i = c.m_first_available_block := by
        have h1 : i * fa.m_block_size = c.m_first_available_block * fa.m_block_size := by omega
        exact Nat.eq_of_mul_eq_mul_right hinv.bs_pos h1
      subst hi2
      rw [hch, set_same hb]
      have : c.m_available_blocks - 1 + 1 = c.m_available_blocks := by omega
      rw [this]
  · intro bs cs fa hmk
    obtain ⟨hinv, hch, hbs, hn4⟩ := mk_sized_inv hmk
    constructor
    · intro heap p fa1 halloc
      obtain ⟨hinv1, _, hn1⟩ := allocate_inv hinv halloc
      obtain ⟨c1, i, _, _, _, hde, hinv2⟩ := deallocate_inv hinv1 (List.mem_cons_self _ _)
      refine ⟨_, _, hde, rfl, ?_⟩
      rcases hinv2.shape with ⟨h0, _, _⟩ | ⟨c2, hc2, _, _, hcinv⟩
      · simp at h0
      · simp only [List.cons.injEq, and_true] at hc2
        have := hcinv.count
        simp only [List.erase_cons_head, List.length_nil, Nat.add_zero] at this
        rw [← hc2] at this
        simp only at this ⊢
        omega
    · intro s hsz
      subst hbs
      obtain ⟨c, hini, _, _⟩ := chunk_initialize_ok s hinv.bs_pos hinv.n_pos hsz
      obtain ⟨_, _, havn, hc⟩ := chunk_initialize_inv hini
      have hav : 0 < c.m_available_blocks := by have := hinv.n_pos; omega
      obtain ⟨_, _, b, hb, halloc, _⟩ := chunk_allocate_inv hc hinv.bs_pos hav
      have hla : fa.m_last_allocation = none := by
        rcases hinv.shape with ⟨_, h, _⟩ | ⟨c, h, _⟩
        · exact h
        · rw [hch] at h; simp at h
      refine ⟨c.m_data_ptr + c.m_first_available_block * fa.m_block_size,
        { fa with m_chunks := [{ c with m_first_available_block := b,
                                        m_available_blocks := c.m_available_blocks - 1 }],
                  m_last_allocation := some 0,
                  m_last_deallocation := some 0 }, ?_⟩
      simp [FixedAllocator.allocate, hla, hch, FixedAllocator.refill, scan_available, hini,
        hav, halloc]

/-- C7 applied to the state after one allocation, which has 3 free blocks,
and to the freshly constructed `FixedAllocator(8, 16)`. -/
theorem C7_allocate_then_deallocate_restores_witness :
    (Reachable demo_one [4096] ∧ (∃ c ∈ demo_one.m_chunks, 0 < c.m_available_blocks) ∧
      ∃ p fa1 fa2, demo_one.allocate none = .ok (p, fa1) ∧ fa1.deallocate p = .ok fa2 ∧
        fa2.m_chunks = demo_one.m_chunks) ∧
    (FixedAllocator.mk_sized 8 16 = .ok demo_fresh ∧
      demo_fresh.allocate (some demo_slab) = .ok (4096, demo_one) ∧
      ∃ fa2 c, demo_one.deallocate 4096 = .ok fa2 ∧ fa2.m_chunks = [c] ∧
        c.m_available_blocks = demo_fresh.m_number_of_blocks) :=
  ⟨⟨demo_one_reachable, by decide,
    C7_allocate_then_deallocate_restores.1 demo_one [4096] demo_one_reachable (by decide) none⟩,
   ⟨by decide, by decide,
    (C7_allocate_then_deallocate_restores.2 8 16 demo_fresh (by decide)).1
      (some demo_slab) 4096 demo_one (by decide)⟩⟩

/-- C8: in every state reached from a freshly constructed FixedAllocator by
`allocate` calls and `deallocate` calls on outstanding pointers, two
outstanding pointers are different addresses, differ by a non-zero multiple
of the block size, and lie in different blocks. -/
theorem C8_outstanding_pointers_do_not_alias (fa : FixedAllocator) (out : List Nat)
    (h : Reachable fa out) :
    out.Pairwise (fun (p q : Nat) =>
      p ≠ q ∧
      (∃ k : Int, k ≠ 0 ∧ (p : Int) - (q : Int) = k * (fa.m_block_size : Int)) ∧
      fa.block_of p ≠ none ∧ fa.block_of p ≠ fa.block_of q) := by
  have hinv := reachable_inv h
  rcases hinv.shape with ⟨_, _, hout⟩ | ⟨c, hch, _, _, hc⟩
  · subst hout
    exact List.Pairwise.nil
  · apply List.Nodup.pairwise_of_forall_ne hc.out_nodup
    intro p hp q hq hpq
    obtain ⟨i, _, hpi, hbp⟩ := block_of_outstanding hinv hch hc hp
    obtain ⟨j, _, hqj, hbq⟩ := block_of_outstanding hinv hch hc hq
    have hij : i ≠ j := by
      intro hij
      apply hpq
      rw [hpi, hqj, hij]
    refine ⟨hpq, ⟨(i : Int) - (j : Int), ?_, ?_⟩, ?_, ?_⟩
    · omega
    · rw [hpi, hqj]
      push_cast
      ring
    · rw [hbp]; simp
    · rw [hbp, hbq]
      simp [hij]

/-- C8 applied after two allocations from `FixedAllocator(8, 16)`: the
pointers `4104` and `4096` lie 8 bytes apart, in blocks 1 and 0. -/
theorem C8_outstanding_pointers_do_not_alias_witness :
    Reachable demo_two [4104, 4096] ∧
    ([4104, 4096] : List Nat).Pairwise (fun (p q : Nat) =>
      p ≠ q ∧
      (∃ k : Int, k ≠ 0 ∧ (p : Int) - (q : Int) = k * (demo_two.m_block_size : Int)) ∧
      demo_two.block_of p ≠ none ∧ demo_two.block_of p ≠ demo_two.block_of q) :=
  ⟨demo_two_reachable, C8_outstanding_pointers_do_not_alias demo_two [4104, 4096] demo_two_reachable⟩

/-- C10 as stated fails: with alignment 3 and `max_object_size = 2^64 - 1` a
request of 1 byte has index `0`, and `pool[0].allocate()` returns the block at
`4096`; but `max_index = get_offset(2^64 - 1, 3)` wraps to `0`, so
`allocate(1)` stops at `assert(index < max_index)`. -/
theorem C10_counterexample :
    0 < 1 ∧ 1 ≤ demo_wide.m_max_object_size ∧
    (1 + demo_wide.m_object_alignment - 1) / demo_wide.m_object_alignment - 1 = 0 ∧
    demo_wide.m_pool[0]? = some demo_fresh3 ∧
    (demo_fresh3.allocate (some demo_slab)).map Prod.fst = .ok 4096 ∧
    get_offset demo_wide.m_max_object_size demo_wide.m_object_alignment = 0 ∧
    (demo_wide.allocate 1 (some demo_slab)).map Prod.fst = .error .assertion :=
  ⟨by decide, by decide, by decide, List.getElem?_cons_zero, by decide, by decide, by decide⟩

/-- C10 (amended): when the alignment is positive and `max_object_size +
alignment` does not exceed `2^64`, `allocate(bytes)` for `0 < bytes <=
max_object_size` fails exactly as `pool[index].allocate()` fails and otherwise
returns its pointer, for `index = ceil(bytes / alignment) - 1`; the pool entry
at `index` becomes the allocator that call leaves and every other entry, the
length of the pool and the two size parameters are unchanged. -/
theorem C10_allocate_delegates (s : SmallObjectAllocator) (bytes : Nat) (heap : Option Slab)
    (fa : FixedAllocator)
    (ha : 0 < s.m_object_alignment)
    (hfit : s.m_max_object_size + s.m_object_alignment ≤ SIZE_MOD)
    (hb : 0 < bytes) (hle : bytes ≤ s.m_max_object_size)
    (hfa : s.m_pool[(bytes + s.m_object_alignment - 1) / s.m_object_alignment - 1]? = some fa) :
    (∀ e, fa.allocate heap = .error e → s.allocate bytes heap = .error e) ∧
    (∀ p fa1, fa.allocate heap = .ok (p, fa1) →
      ∃ s1, s.allocate bytes heap = .ok (p, s1) ∧
        s1.m_pool[(bytes + s.m_object_alignment - 1) / s.m_object_alignment - 1]? = some fa1 ∧
        (∀ j, j ≠ (bytes + s.m_object_alignment - 1) / s.m_object_alignment - 1 →
          s1.m_pool[j]? = s.m_pool[j]?) ∧
        s1.m_pool.length = s.m_pool.length ∧
        s1.m_object_alignment = s.m_object_alignment ∧
        s1.m_max_object_size = s.m_max_object_size) := by
  obtain ⟨hidx, _⟩ := pool_index_eq ha hb (by omega : bytes + s.m_object_alignment ≤ SIZE_MOD)
  have hlt := (size_routing_no_wrap ha hb hle hfit).1
  rw [hidx] at hlt
  have hgt : ¬ bytes > s.m_max_object_size := by omega
  have hb0 : ¬ bytes = 0 := by omega
  have ha0 : ¬ s.m_object_alignment = 0 := by omega
  have hin : (bytes + s.m_object_alignment - 1) / s.m_object_alignment - 1 < s.m_pool.length :=
    (List.getElem?_eq_some.mp hfa).1
  constructor
  · intro e he
    simp [SmallObjectAllocator.allocate, hgt, hb0, ha0, hidx, hlt, hfa, he]
  · intro p fa1 hok
    refine ⟨⟨s.m_object_alignment, s.m_max_object_size,
      s.m_pool.set ((bytes + s.m_object_alignment - 1) / s.m_object_alignment - 1) fa1⟩,
      ?_, ?_, ?_, ?_, rfl, rfl⟩
    · simp [SmallObjectAllocator.allocate, hgt, hb0, ha0, hidx, hlt, hfa, hok]
    · simp [hin]
    · intro j hj
      exact List.getElem?_set_ne (Ne.symm hj)
    · simp

/-- The hypotheses of the amended C10 hold for the pool of 64 classes and a
request of 13 bytes, which goes to the class of 16 bytes at index 3. -/
theorem C10_allocate_delegates_witness :
    (0 < demo_allocator.m_object_alignment ∧
      demo_allocator.m_max_object_size + demo_allocator.m_object_alignment ≤ SIZE_MOD ∧
      0 < 13 ∧ 13 ≤ demo_allocator.m_max_object_size ∧
      (13 + demo_allocator.m_object_alignment - 1) / demo_allocator.m_object_alignment - 1 = 3 ∧
      demo_allocator.m_pool[3]? = some { m_block_size := 16, m_number_of_blocks := 255 }) ∧
    (∀ e, FixedAllocator.allocate { m_block_size := 16, m_number_of_blocks := 255 }
          (some demo_slab) = .error e →
      demo_allocator.allocate 13 (some demo_slab) = .error e) ∧
    (∀ p fa1, FixedAllocator.allocate { m_block_size := 16, m_number_of_blocks := 255 }
          (some demo_slab) = .ok (p, fa1) →
      ∃ s1, demo_allocator.allocate 13 (some demo_slab) = .ok (p, s1) ∧
        s1.m_pool[3]? = some fa1 ∧
        (∀ j, j ≠ 3 → s1.m_pool[j]? = demo_allocator.m_pool[j]?) ∧
        s1.m_pool.length = demo_allocator.m_pool.length ∧
        s1.m_object_alignment = demo_allocator.m_object_alignment ∧
        s1.m_max_object_size = demo_allocator.m_max_object_size) :=
  ⟨by decide,
   C10_allocate_delegates demo_allocator 13 (some demo_slab)
      { m_block_size := 16, m_number_of_blocks := 255 }
      (by decide) (by decide) (by decide) (by decide) (by decide)⟩

/-- C11: the degenerate requests change nothing.  `allocate(0)` returns the
null pointer, and `deallocate(nullptr, bytes)`, `deallocate(ptr, 0)` and
`deallocate(nullptr)` return normally; each leaves the allocator as it was and
hands nothing to `::operator delete`. -/
theorem C11_degenerate_requests_change_nothing (s : SmallObjectAllocator)
    (heap : Option Slab) (ptr bytes : Nat) :
    s.allocate 0 heap = .ok (0, s) ∧
    s.deallocate_sized 0 bytes = ⟨[], .ok s⟩ ∧
    s.deallocate_sized ptr 0 = ⟨[], .ok s⟩ ∧
    s.deallocate 0 = .ok s := by
  refine ⟨?_, ?_, ?_, ?_⟩
  · simp [SmallObjectAllocator.allocate]
  · simp [SmallObjectAllocator.deallocate_sized]
  · simp [SmallObjectAllocator.deallocate_sized]
  · simp [SmallObjectAllocator.deallocate]

set_option maxRecDepth 20000 in
/-- C12 as stated fails: `Chunk::initialize(16, 10)` on a slab that held
`0xCD` returns with first free block 0 and 10 free blocks, but its loop makes
9 writes, so the first byte of the last block (offset 144) still holds `0xCD`
and not the sentinel 10; block 8 does hold 9. -/
theorem C12_counterexample :
    (16 ≥ 1 ∧ 1 ≤ 10 ∧ 10 ≤ 255) ∧
    Except.map
        (fun (c : Chunk) => (c.m_first_available_block, c.m_available_blocks,
                             c.slab[8 * 16]?, c.slab[9 * 16]?))
        ( Chunk.initialize {} 16 10 (some demo_slab)) =
      .ok (0, 10, some 9, some 205) := by
  decide

/-- C12 (amended): for `block_size >= 1` and `n >= 1` blocks with
`block_size * n` below `2^64`, `Chunk::initialize` on a slab from the heap and
`Chunk::reset` on an owned slab of `block_size * n` bytes return with first
free block 0 and `n` free blocks, and the first byte of block `i` holds
`i + 1` for every `i` with `i + 1 < n`.  The first byte of the last block is
not written: it keeps what the slab held before the call. -/
theorem C12_reset_writes_all_links_but_the_last (bs n : Nat) (hbs : bs ≥ 1) (hn : n ≥ 1)
    (hfit : bs * n < SIZE_MOD) :
    (∀ s : Slab, ∃ c, Chunk.initialize {} bs n (some s) = .ok c ∧
      c.m_data_ptr = s.addr ∧ c.m_first_available_block = 0 ∧ c.m_available_blocks = n ∧
      (∀ i, i + 1 < n → c.slab[i * bs]? = some (i + 1)) ∧
      c.slab[(n - 1) * bs]? = some (s.junk ((n - 1) * bs) % SMALL_MOD)) ∧
    (∀ c0 : Chunk, c0.slab.length = bs * n → ∃ c, c0.reset bs n = .ok c ∧
      c.m_data_ptr = c0.m_data_ptr ∧ c.m_first_available_block = 0 ∧ c.m_available_blocks = n ∧
      (∀ i, i + 1 < n → c.slab[i * bs]? = some (i + 1)) ∧
      c.slab[(n - 1) * bs]? = c0.slab[(n - 1) * bs]?) := by
  have hlast : ∀ k, k + 1 < n → (n - 1) * bs ≠ k * bs := by
    intro k hk h
    have : n - 1 = k := Nat.eq_of_mul_eq_mul_right hbs h
    omega
  constructor
  · intro s
    rw [chunk_initialize_fold s hbs hn hfit rfl]
    obtain ⟨mem1, hreset, _, hlink, hkeep, _⟩ :=
      chunk_reset_spec
        ({ ({} : Chunk) with
            m_data_ptr := s.addr,
            slab := (List.range (bs * n)).map (fun i => s.junk i % SMALL_MOD) })
        hbs hn (by simp)
    refine ⟨_, hreset, rfl, rfl, rfl, hlink, ?_⟩
    have hin : (n - 1) * bs < bs * n := by
      have : (n - 1) * bs < n * bs := Nat.mul_lt_mul_of_pos_right (by omega) hbs
      rwa [Nat.mul_comm n bs] at this
    show mem1[(n - 1) * bs]? = _
    rw [hkeep _ hlast]
    simp [hin]
  · intro c0 hlen
    obtain ⟨mem1, hreset, _, hlink, hkeep, _⟩ := chunk_reset_spec c0 hbs hn hlen
    exact ⟨_, hreset, rfl, rfl, rfl, hlink, hkeep _ hlast⟩

/-- The hypotheses of the amended C12 hold for 10 blocks of 16 bytes. -/
theorem C12_reset_writes_all_links_but_the_last_witness :
    (16 ≥ 1 ∧ 10 ≥ 1 ∧ 16 * 10 < SIZE_MOD) ∧
    ∃ c, Chunk.initialize {} 16 10 (some demo_slab) = .ok c ∧
      c.m_data_ptr = demo_slab.addr ∧ c.m_first_available_block = 0 ∧
      c.m_available_blocks = 10 ∧
      (∀ i, i + 1 < 10 → c.slab[i * 16]? = some (i + 1)) ∧
      c.slab[(10 - 1) * 16]? = some (demo_slab.junk ((10 - 1) * 16) % SMALL_MOD) :=
  ⟨by decide,
   (C12_reset_writes_all_links_but_the_last 16 10 (by decide) (by decide) (by decide)).1
     demo_slab⟩

/-- C13: for chunks of `n <= 255` blocks of `bs >= 1` bytes with `bs * n`
below `2^64`, the free-list invariant (the walk of `m_available_blocks` links
from `m_first_available_block` visits that many pairwise distinct block
indices below `n`, hence `m_first_available_block < n` while a block is free)
holds whenever `Chunk::initialize` returns and after `Chunk::reset` on a slab
of `bs * n` bytes, and `Chunk::allocate`, as well as `Chunk::deallocate` of a
block-aligned pointer inside the slab whose block is not on the free list,
return and keep it. -/
theorem C13_free_list_invariant (bs n : Nat) (hbs : bs ≥ 1) (hn : n ≥ 1) (hn255 : n ≤ 255)
    (hfit : bs * n < SIZE_MOD) :
    (∀ (c0 c : Chunk) (heap : Option Slab), Chunk.initialize c0 bs n heap = .ok c →
      FreeListOk bs n c ∧ c.slab.length = bs * n) ∧
    (∀ c0 : Chunk, c0.slab.length = bs * n →
      ∃ c, c0.reset bs n = .ok c ∧ FreeListOk bs n c ∧ c.slab.length = bs * n) ∧
    (∀ c : Chunk, c.slab.length = bs * n → FreeListOk bs n c →
      (0 < c.m_available_blocks → c.m_first_available_block < n) ∧
      ∃ p c1, c.allocate bs = .ok (p, c1) ∧ FreeListOk bs n c1 ∧ c1.slab.length = bs * n) ∧
    (∀ (c : Chunk) (i : Nat), c.slab.length = bs * n → FreeListOk bs n c → i < n →
      i ∉ free_list c.slab bs c.m_first_available_block c.m_available_blocks →
      ∃ c1, c.deallocate (c.m_data_ptr + i * bs) bs = .ok c1 ∧ FreeListOk bs n c1 ∧
        c1.slab.length = bs * n) := by
  have hreset : ∀ c0 : Chunk, c0.slab.length = bs * n →
      ∃ c, c0.reset bs n = .ok c ∧ FreeListOk bs n c ∧ c.slab.length = bs * n := by
    intro c0 hlen
    obtain ⟨mem1, hr, hl, _, _, hfl⟩ := chunk_reset_spec c0 hbs hn hlen
    exact ⟨_, hr, free_list_ok_of_range hfl, hl⟩
  refine ⟨?_, hreset, ?_, ?_⟩
  · intro c0 c heap h
    obtain ⟨_, _, _, _, s, _, hr⟩ := chunk_initialize_unfold h
    obtain ⟨c1, hr1, hok, hl⟩ := hreset
      { c0 with m_data_ptr := s.addr,
                slab := (List.range (bs * n)).map (fun i => s.junk i % SMALL_MOD) } (by simp)
    rw [hr] at hr1
    simp only [Except.ok.injEq] at hr1
    subst hr1
    exact ⟨hok, hl⟩
  · intro c hlen hc
    constructor
    · intro hav
      exact (chunk_pop hbs hfit hlen hc hav).1
    · by_cases hav : 0 < c.m_available_blocks
      · obtain ⟨_, b, _, halloc, _, hok⟩ := chunk_pop hbs hfit hlen hc hav
        exact ⟨_, _, halloc, hok, hlen⟩
      · have h0 : c.m_available_blocks < 1 := by omega
        have hpos : bs > 0 := hbs
        refine ⟨0, c, ?_, hc, hlen⟩
        simp only [Chunk.allocate, hpos, not_true_eq_false, if_false, h0, if_true]
  · intro c i hlen hc hi hni
    obtain ⟨hde, _, _, hok⟩ := chunk_push hbs hn255 hlen hc hi hni
    exact ⟨_, hde, hok, by simp [hlen]⟩

/-- The hypotheses of C13 hold for 4 blocks of 8 bytes: a chunk built on a
slab from the heap satisfies the invariant. -/
theorem C13_free_list_invariant_witness :
    (8 ≥ 1 ∧ 4 ≥ 1 ∧ 4 ≤ 255 ∧ 8 * 4 < SIZE_MOD) ∧
    ∀ (c0 c : Chunk) (heap : Option Slab), Chunk.initialize c0 8 4 heap = .ok c →
      FreeListOk 8 4 c ∧ c.slab.length = 8 * 4 :=
  ⟨by decide,
   (C13_free_list_invariant 8 4 (by decide) (by decide) (by decide) (by decide)).1⟩

/-- C14: in a well-formed chunk, giving back distinct allocated blocks
`p1, ..., pk` in that order and then calling `Chunk::allocate` `k` times
returns `pk, ..., p1`; in particular `deallocate(p)` followed at once by
`allocate` returns `p`. -/
theorem C14_chunk_returns_blocks_lifo (bs n : Nat) (c : Chunk) (ps : List Nat)
    (hbs : bs ≥ 1) (hn : n ≤ 255) (hfit : bs * n < SIZE_MOD)
    (hlen : c.slab.length = bs * n) (hc : FreeListOk bs n c) (hnd : ps.Nodup)
    (hblocks : ∀ p ∈ ps, ∃ i, i < n ∧ p = c.m_data_ptr + i * bs ∧
      i ∉ free_list c.slab bs c.m_first_available_block c.m_available_blocks) :
    (∃ c1 c2, Chunk.deallocate_all bs c ps = .ok c1 ∧
      Chunk.allocate_times bs ps.length c1 = .ok (ps.reverse, c2)) ∧
    (∀ p ∈ ps, ∃ c1 c2, c.deallocate p bs = .ok c1 ∧ c1.allocate bs = .ok (p, c2)) := by
  constructor
  · obtain ⟨c1, c2, h1, h2, _⟩ := chunk_lifo hbs hn hfit ps c hlen hc hnd hblocks
    exact ⟨c1, c2, h1, h2⟩
  · intro p hp
    obtain ⟨c1, c2, h1, h2, _⟩ := chunk_lifo hbs hn hfit [p] c hlen hc (List.nodup_singleton p)
      (fun q hq => by
        rw [List.mem_singleton] at hq
        subst hq
        exact hblocks q hp)
    simp only [Chunk.deallocate_all] at h1
    cases hd : c.deallocate p bs with
    | error e => rw [hd] at h1; cases h1
    | ok c3 =>
      rw [hd] at h1
      simp only [Except.ok.injEq] at h1
      subst h1
      simp only [List.length_singleton, Chunk.allocate_times, List.reverse_singleton] at h2
      cases ha : c3.allocate bs with
      | error e => rw [ha] at h2; cases h2
      | ok r =>
        obtain ⟨q, c4⟩ := r
        rw [ha] at h2
        simp only [List.nil_append, Except.ok.injEq, Prod.mk.injEq, List.cons.injEq,
          and_true] at h2
        obtain ⟨hq, _⟩ := h2
        subst hq
        exact ⟨c3, c4, rfl, ha⟩

/-- The hypotheses of C14 hold for the chunk with blocks 0 and 1 handed out:
giving back `4096` then `4104` and allocating twice returns `4104`, `4096`. -/
theorem C14_chunk_returns_blocks_lifo_witness :
    (8 ≥ 1 ∧ 4 ≤ 255 ∧ 8 * 4 < SIZE_MOD ∧ demo_two_chunk.slab.length = 8 * 4 ∧
      FreeListOk 8 4 demo_two_chunk ∧ ([4096, 4104] : List Nat).Nodup) ∧
    ∃ c1 c2, Chunk.deallocate_all 8 demo_two_chunk [4096, 4104] = .ok c1 ∧
      Chunk.allocate_times 8 ([4096, 4104] : List Nat).length c1 =
        .ok (([4096, 4104] : List Nat).reverse, c2) :=
  ⟨⟨by decide, by decide, by decide, by decide, demo_two_chunk_ok, by decide⟩,
   (C14_chunk_returns_blocks_lifo 8 4 demo_two_chunk [4096, 4104] (by decide) (by decide)
      (by decide) (by decide) demo_two_chunk_ok (by decide)
      (by
        intro p hp
        simp only [List.mem_cons, List.mem_singleton, List.not_mem_nil, or_false] at hp
        rcases hp with hp | hp
        · exact ⟨0, by decide, by rw [hp]; rfl, by decide⟩
        · exact ⟨1, by decide, by rw [hp]; rfl, by decide⟩)).1⟩

/-- C15 as stated fails: with block size 8 and a target chunk size of 4 the
call stops at `assert(block_size > 0 && chunk_size >= block_size)`. -/
theorem C15_counterexample :
    8 ≥ 1 ∧ FixedAllocator.initialize {} 8 4 = .error .assertion := by
  decide

/-- C15 (amended): for `block_size >= 1` and `target_chunk_size >= block_size`
the call returns, stores the block size and
`min(255, max(4, target_chunk_size / block_size))` blocks per chunk, a number
within `[4, 255]`, and leaves the chunk sequence and both caches as they were
(no chunk for a fresh allocator). -/
theorem C15_initialize_clamps (fa : FixedAllocator) (block_size chunk_size : Nat)
    (hbs : block_size ≥ 1) (hcs : chunk_size ≥ block_size) :
    FixedAllocator.initialize fa block_size chunk_size =
      .ok { fa with m_block_size := block_size,
                    m_number_of_blocks := min 255 (max 4 (chunk_size / block_size)) } ∧
    4 ≤ min 255 (max 4 (chunk_size / block_size)) ∧
    min 255 (max 4 (chunk_size / block_size)) ≤ 255 ∧
    (FixedAllocator.mk_sized block_size chunk_size).map (fun a => a.m_chunks) = .ok [] := by
  have hq : chunk_size / block_size > 0 := Nat.div_pos hcs hbs
  have hpos : block_size > 0 := hbs
  have hclamp : (if chunk_size / block_size > MAX_BLOCKS_PER_CHUNK then MAX_BLOCKS_PER_CHUNK
      else if chunk_size / block_size < MIN_BLOCKS_PER_CHUNK then MIN_BLOCKS_PER_CHUNK
      else chunk_size / block_size) % SMALL_MOD = min 255 (max 4 (chunk_size / block_size)) := by
    simp only [MAX_BLOCKS_PER_CHUNK, MIN_BLOCKS_PER_CHUNK, SMALL_MOD]
    split_ifs <;> omega
  have hinit : ∀ a : FixedAllocator, FixedAllocator.initialize a block_size chunk_size =
      .ok { a with m_block_size := block_size,
                   m_number_of_blocks := min 255 (max 4 (chunk_size / block_size)) } := by
    intro a
    simp only [ FixedAllocator.initialize, hpos, hcs, and_self, not_true_eq_false, if_false,
      hq, hclamp]
  refine ⟨hinit fa, by omega, by omega, ?_⟩
  rw [FixedAllocator.mk_sized, hinit]
  rfl

/-- The hypotheses of the amended C15 hold for block size 8 with targets
4096 and 16, which give 255 and 4 blocks per chunk. -/
theorem C15_initialize_clamps_witness :
    (8 ≥ 1 ∧ 4096 ≥ 8 ∧ 16 ≥ 8) ∧
    FixedAllocator.initialize {} 8 4096 =
      .ok { m_block_size := 8, m_number_of_blocks := 255 } ∧
    FixedAllocator.initialize {} 8 16 =
      .ok { m_block_size := 8, m_number_of_blocks := 4 } :=
  ⟨by decide,
   (C15_initialize_clamps {} 8 4096 (by decide) (by decide)).1,
   (C15_initialize_clamps {} 8 16 (by decide) (by decide)).1⟩

/-- C17 (the code departs from it): for a FixedAllocator with at least one
chunk and a pointer inside no chunk's slab, `find_in_vicinity` never returns
`nullptr`: the `while(true)` has no exit for exhausted cursors, so the call
either dereferences a cursor outside the sequence or runs for ever. -/
theorem C17_find_in_vicinity_never_gives_up (fa : FixedAllocator) (ptr : Nat)
    (hne : fa.m_chunks ≠ [])
    (hout : ∀ c ∈ fa.m_chunks,
      c.has_block ptr ((fa.m_number_of_blocks * fa.m_block_size) % SIZE_MOD) = false) :
    fa.find_in_vicinity ptr = .error .undefined ∨
    fa.find_in_vicinity ptr = .error .diverges := by
  have hemp : fa.m_chunks.isEmpty = false := by
    cases hl : fa.m_chunks with
    | nil => exact absurd hl hne
    | cons a l => rfl
  unfold FixedAllocator.find_in_vicinity
  simp only [hemp, Bool.false_eq_true, if_false]
  cases hld : fa.m_last_deallocation with
  | none => exact Or.inl rfl
  | some d =>
    simp only
    cases hloop : fa.vicinity_loop ptr ((fa.m_number_of_blocks * fa.m_block_size) % SIZE_MOD)
        (fa.m_chunks.length + 1) (some d)
        (if d + 1 = fa.m_chunks.length - 1 then none else some (d + 1)) with
    | none => exact Or.inr rfl
    | some r =>
      cases r with
      | error e =>
        have := vicinity_loop_fault fa ptr _ _ _ _ e hloop
        subst this
        exact Or.inl rfl
      | ok i =>
        obtain ⟨c, hc, hb⟩ := vicinity_loop_found fa ptr _ _ _ _ i hloop
        have := hout c (List.getElem?_mem hc)
        rw [this] at hb
        cases hb

/-- The hypotheses of C17's theorem hold for three full chunks and the
pointer `100`, which lies in none of them: the search runs for ever.  With
one chunk the `upper` cursor is one past the back and is dereferenced. -/
theorem C17_find_in_vicinity_never_gives_up_witness :
    (demo_three_full.m_chunks ≠ [] ∧
      ∀ c ∈ demo_three_full.m_chunks, c.has_block 100 32 = false) ∧
    (demo_three_full.find_in_vicinity 100 = .error .undefined ∨
      demo_three_full.find_in_vicinity 100 = .error .diverges) ∧
    demo_three_full.find_in_vicinity 100 = .error .diverges ∧
    (∀ fuel, demo_three_full.vicinity_loop 100 32 fuel (some 0) (some 1) = none) ∧
    demo_one.find_in_vicinity 100 = .error .undefined :=
  ⟨⟨by decide, by decide⟩,
   C17_find_in_vicinity_never_gives_up demo_three_full 100 (by decide) (by decide),
   by decide,
   find_in_vicinity_budget demo_three_full 100 32 0 (some 1) (by decide),
   by decide⟩

/-- C18: in a well-formed FixedAllocator with a free block somewhere,
`allocate()` returns.  If `m_last_allocation` is set and its chunk has a free
block, the block comes from that chunk and `m_last_allocation` stays;
otherwise (`m_last_allocation` unset, or on a full chunk) the block comes from
the lowest-index chunk with a free block and `m_last_allocation` moves to it.
The pointer is the first free block of the chosen chunk and is not null; only
that chunk changes, as by `Chunk::allocate`, and no chunk is appended. -/
theorem C18_allocate_prefers_cache_then_first_free (fa : FixedAllocator)
    (heap : Option Slab) (hwf : fa.WellFormed)
    (hfree : ∃ c ∈ fa.m_chunks, 0 < c.m_available_blocks) :
    (∀ j cj, fa.m_last_allocation = some j → fa.m_chunks[j]? = some cj →
      0 < cj.m_available_blocks →
      ∃ p c1, cj.allocate fa.m_block_size = .ok (p, c1) ∧
        p = cj.m_data_ptr + cj.m_first_available_block * fa.m_block_size ∧ p ≠ 0 ∧
        fa.allocate heap = .ok (p, { fa with m_chunks := fa.m_chunks.set j c1 }) ∧
        (fa.m_chunks.set j c1).length = fa.m_chunks.length) ∧
    ((fa.m_last_allocation = none ∨
        ∃ j cj, fa.m_last_allocation = some j ∧ fa.m_chunks[j]? = some cj ∧
          cj.m_available_blocks = 0) →
      ∃ i c p c1, fa.m_chunks[i]? = some c ∧ 0 < c.m_available_blocks ∧
        (∀ k ck, k < i → fa.m_chunks[k]? = some ck → ck.m_available_blocks = 0) ∧
        c.allocate fa.m_block_size = .ok (p, c1) ∧
        p = c.m_data_ptr + c.m_first_available_block * fa.m_block_size ∧ p ≠ 0 ∧
        fa.allocate heap = .ok (p, { fa with m_last_allocation := some i,
                                             m_chunks := fa.m_chunks.set i c1 }) ∧
        (fa.m_chunks.set i c1).length = fa.m_chunks.length) := by
  have htake : ∀ (i : Nat) (c : Chunk), fa.m_chunks[i]? = some c → 0 < c.m_available_blocks →
      ∃ p c1, c.allocate fa.m_block_size = .ok (p, c1) ∧
        p = c.m_data_ptr + c.m_first_available_block * fa.m_block_size ∧ p ≠ 0 := by
    intro i c hci hpos
    obtain ⟨hnull, hlen, hok⟩ := hwf.chunks_ok c (List.getElem?_mem hci)
    obtain ⟨_, b, _, halloc, _, _⟩ := chunk_pop hwf.bs_pos hwf.fits hlen hok hpos
    exact ⟨_, _, halloc, rfl, by omega⟩
  constructor
  · intro j cj hla hcj hpos
    obtain ⟨p, c1, halloc, hp, hp0⟩ := htake j cj hcj hpos
    refine ⟨p, c1, halloc, hp, hp0, ?_, by simp⟩
    have hne : ¬ cj.m_available_blocks = 0 := by omega
    simp [FixedAllocator.allocate, hla, hcj, hne, hpos, halloc]
  · intro hcase
    obtain ⟨i, c, hscan, hci, hpos, hmin⟩ := scan_available_first fa.m_chunks 0 hfree
    simp only [Nat.zero_add] at hscan
    obtain ⟨p, c1, halloc, hp, hp0⟩ := htake i c hci hpos
    refine ⟨i, c, p, c1, hci, hpos, hmin, halloc, hp, hp0, ?_, by simp⟩
    rcases hcase with hla | ⟨j, cj, hla, hcj, hzero⟩
    · simp [FixedAllocator.allocate, hla, FixedAllocator.refill, hscan, hci, hpos, halloc]
    · simp [FixedAllocator.allocate, hla, hcj, hzero, FixedAllocator.refill, hscan, hci, hpos,
        halloc]

/-- The hypotheses of C18 hold for a full chunk followed by a chunk with two
free blocks, `m_last_allocation` on the full one: `allocate()` takes block 2
of the second chunk (`8208`) and moves `m_last_allocation` to index 1. -/
theorem C18_allocate_prefers_cache_then_first_free_witness :
    (demo_full_then_free.WellFormed ∧
      ∃ c ∈ demo_full_then_free.m_chunks, 0 < c.m_available_blocks) ∧
    (demo_full_then_free.m_last_allocation = none ∨
        ∃ j cj, demo_full_then_free.m_last_allocation = some j ∧
          demo_full_then_free.m_chunks[j]? = some cj ∧ cj.m_available_blocks = 0) ∧
    (demo_full_then_free.allocate none).map
        (fun r => (r.1, r.2.m_last_allocation, r.2.m_chunks.length)) =
      .ok (8208, some 1, 2) ∧
    ∃ i c p c1, demo_full_then_free.m_chunks[i]? = some c ∧ 0 < c.m_available_blocks ∧
      (∀ k ck, k < i → demo_full_then_free.m_chunks[k]? = some ck →
        ck.m_available_blocks = 0) ∧
      c.allocate demo_full_then_free.m_block_size = .ok (p, c1) ∧
      p = c.m_data_ptr + c.m_first_available_block * demo_full_then_free.m_block_size ∧
      p ≠ 0 ∧
      demo_full_then_free.allocate none =
        .ok (p, { demo_full_then_free with
                  m_last_allocation := some i,
                  m_chunks := demo_full_then_free.m_chunks.set i c1 }) ∧
      (demo_full_then_free.m_chunks.set i c1).length = demo_full_then_free.m_chunks.length :=
  ⟨⟨demo_full_then_free_ok, by decide⟩,
   Or.inr ⟨0, demo_full_chunk 4096, rfl, rfl, rfl⟩,
   by decide,
   (C18_allocate_prefers_cache_then_first_free demo_full_then_free none
      demo_full_then_free_ok (by decide)).2
     (Or.inr ⟨0, demo_full_chunk 4096, rfl, rfl, rfl⟩)⟩

/-- C19: along every use of a FixedAllocator that starts freshly constructed
(`allocate` calls and `deallocate` calls on outstanding pointers), the chunk
sequence holds at most one chunk and at most `m_number_of_blocks` pointers are
outstanding.  When that many are outstanding the one chunk is full and
`m_last_allocation` is on it: the next `allocate()` stops at
`assert(m_last_allocation->m_available_blocks > 0)` whatever the heap would
answer, and `Chunk::allocate` on that chunk, which is what runs with
assertions off, returns `nullptr` and leaves the chunk as it is. -/
theorem C19_one_chunk_is_the_capacity (fa : FixedAllocator) (out : List Nat)
    (h : Reachable fa out) :
    fa.m_chunks.length ≤ 1 ∧ out.length ≤ fa.m_number_of_blocks ∧
    (out.length = fa.m_number_of_blocks →
      ∃ c, fa.m_chunks = [c] ∧ fa.m_last_allocation = some 0 ∧ c.m_available_blocks = 0 ∧
        (∀ heap : Option Slab, fa.allocate heap = .error .assertion) ∧
        c.allocate fa.m_block_size = .ok (0, c)) := by
  have hinv := reachable_inv h
  rcases hinv.shape with ⟨hch, _, hout⟩ | ⟨c, hch, hla, _, hc⟩
  · refine ⟨by simp [hch], by simp [hout], ?_⟩
    intro hfull
    have := hinv.n_pos
    rw [hout] at hfull
    simp at hfull
    omega
  · have hcount := hc.count
    refine ⟨by simp [hch], by omega, ?_⟩
    intro hfull
    have hc0 : c.m_available_blocks = 0 := by omega
    have hall : ∀ d ∈ fa.m_chunks, d.m_available_blocks = 0 := by
      intro d hd
      rw [hch] at hd
      simp at hd
      rw [hd]; exact hc0
    refine ⟨c, hch, hla, hc0, fun heap => allocate_of_full hla (by rw [hch]; rfl) hall heap, ?_⟩
    have hbs : fa.m_block_size > 0 := hinv.bs_pos
    simp [Chunk.allocate, hbs, hc0]

/-- C19 applied after four allocations from `FixedAllocator(8, 16)`, which
has 4 blocks per chunk: one chunk, four pointers outstanding, and the fifth
`allocate()` stops at the assertion. -/
theorem C19_one_chunk_is_the_capacity_witness :
    Reachable demo_four [4120, 4112, 4104, 4096] ∧
    ([4120, 4112, 4104, 4096] : List Nat).length = demo_four.m_number_of_blocks ∧
    demo_four.m_chunks.length ≤ 1 ∧
    ∀ heap : Option Slab, demo_four.allocate heap = .error .assertion :=
  ⟨demo_four_reachable, by decide,
   (C19_one_chunk_is_the_capacity demo_four _ demo_four_reachable).1,
   by
    obtain ⟨c, _, _, _, hall, _⟩ :=
      (C19_one_chunk_is_the_capacity demo_four _ demo_four_reachable).2.2 (by decide)
    exact hall⟩

/-- C20: when `find_in_vicinity` returns the chunk `c` (index `d`) and `ptr`
is a block of `c` that is not on its well-formed free list, `deallocate(ptr)`
returns, and all it changes is, in chunk `c`, the link byte at `ptr` (now the
old first free block), the first free block (now the block of `ptr`) and the
free count (one more), and `m_last_deallocation` (now on `c`).  The chunk
sequence keeps its length and order, `m_last_allocation` is untouched, and the
guard `m_available_blocks > m_number_of_blocks` of the reclamation branch is
false. -/
theorem C20_deallocate_changes_one_chunk (fa : FixedAllocator) (ptr d i : Nat) (c : Chunk)
    (hbs : 0 < fa.m_block_size) (hn : fa.m_number_of_blocks ≤ 255)
    (hfind : fa.find_in_vicinity ptr = .ok (some d)) (hcd : fa.m_chunks[d]? = some c)
    (hlen : c.slab.length = fa.m_block_size * fa.m_number_of_blocks)
    (hc : FreeListOk fa.m_block_size fa.m_number_of_blocks c)
    (hi : i < fa.m_number_of_blocks) (hptr : ptr = c.m_data_ptr + i * fa.m_block_size)
    (hni : i ∉ free_list c.slab fa.m_block_size c.m_first_available_block
      c.m_available_blocks) :
    fa.deallocate ptr = .ok
      { fa with
        m_last_deallocation := some d,
        m_chunks := fa.m_chunks.set d
          { c with slab := c.slab.set (i * fa.m_block_size) c.m_first_available_block,
                   m_first_available_block := i,
                   m_available_blocks := c.m_available_blocks + 1 } } ∧
    ¬ (c.m_available_blocks + 1 > fa.m_number_of_blocks) := by
  obtain ⟨hde, hav, _, _⟩ := chunk_push hbs hn hlen hc hi hni
  have hne : fa.m_chunks.isEmpty = false := by
    cases hl : fa.m_chunks with
    | nil => rw [hl] at hcd; simp at hcd
    | cons a l => rfl
  have hnot : ¬ c.m_available_blocks + 1 > fa.m_number_of_blocks := by omega
  refine ⟨?_, hnot⟩
  subst hptr
  simp [FixedAllocator.deallocate, hne, hfind, hcd, hde, hnot]

/-- The hypotheses of C20 hold for three full chunks with
`m_last_deallocation` on the front one and the pointer `4096`, block 0 of the
front chunk. -/
theorem C20_deallocate_changes_one_chunk_witness :
    (demo_three_full.find_in_vicinity 4096 = .ok (some 0) ∧
      demo_three_full.m_chunks[0]? = some (demo_full_chunk 4096) ∧
      FreeListOk 8 4 (demo_full_chunk 4096)) ∧
    (demo_three_full.deallocate 4096).map
        (fun a => (a.m_chunks.map (fun c => (c.m_data_ptr, c.m_available_blocks)),
                   a.m_last_allocation, a.m_last_deallocation)) =
      .ok ([(4096, 1), (8192, 0), (12288, 0)], some 2, some 0) :=
  ⟨⟨by decide, by decide, ⟨by decide, by decide, by decide⟩⟩,
   by
    rw [(C20_deallocate_changes_one_chunk demo_three_full 4096 0 0 (demo_full_chunk 4096)
      (by decide) (by decide) (by decide) (by decide) (by decide)
      ⟨by decide, by decide, by decide⟩ (by decide) (by decide) (by decide)).1]
    decide⟩

end MemoryAllocator
